import Mathlib

/-!
Verification of the QCLight quantum-circuit simulator core.

The development shallowly embeds the Python sources:
  * `src/qclight/utils/__init__.py` (bit manipulation: `extract_bits`,
    `range_fixed_bits`, `range_fixed_bits_switch`),
  * `src/qclight/gates/gates.py` (the 2x2 gate matrices),
  * `src/qclight/circuit/circuit.py` (`QCLCircuit`: state initialisation,
    gate expansion, `cx`/`ccx`, `run`, `counts`),
  * `src/qclight/circuit/half_adder.py` (`HalfAdderCircuit`).

Amplitudes are modelled exactly.  Every amplitude produced by the embedded
operations lives in the ring Q[sqrt 2], which we represent computably as
pairs of rationals, so that concrete circuits can be evaluated by `decide`.
The numpy float64 arithmetic of the original is idealised as exact real
arithmetic, as the specification describes the vectors mathematically.
-/

/-- Element `a + b * sqrt 2` of the ring Q[sqrt 2], represented computably by
the pair of rational coefficients.  This ring contains every amplitude the
embedded circuits produce (the Hadamard entries are `sqrt 2 / 2`). -/
@[ext]
structure RQ2 where
  a : ℚ
  b : ℚ
deriving DecidableEq, Repr

instance : Zero RQ2 := ⟨⟨0, 0⟩⟩

instance : One RQ2 := ⟨⟨1, 0⟩⟩

instance : Add RQ2 := ⟨fun x y => ⟨x.a + y.a, x.b + y.b⟩⟩

instance : Neg RQ2 := ⟨fun x => ⟨-x.a, -x.b⟩⟩

/-- Multiplication: `(a + b√2)(c + d√2) = (ac + 2bd) + (ad + bc)√2`. -/
instance : Mul RQ2 := ⟨fun x y => ⟨x.a * y.a + 2 * x.b * y.b, x.a * y.b + x.b * y.a⟩⟩

theorem RQ2.zero_def : (0 : RQ2) = ⟨0, 0⟩ := rfl

theorem RQ2.one_def : (1 : RQ2) = ⟨1, 0⟩ := rfl

@[simp] theorem RQ2.add_a (x y : RQ2) : (x + y).a = x.a + y.a := rfl

@[simp] theorem RQ2.add_b (x y : RQ2) : (x + y).b = x.b + y.b := rfl

@[simp] theorem RQ2.neg_a (x : RQ2) : (-x).a = -x.a := rfl

@[simp] theorem RQ2.neg_b (x : RQ2) : (-x).b = -x.b := rfl

@[simp] theorem RQ2.mul_a (x y : RQ2) : (x * y).a = x.a * y.a + 2 * x.b * y.b := rfl

@[simp] theorem RQ2.mul_b (x y : RQ2) : (x * y).b = x.a * y.b + x.b * y.a := rfl

@[simp] theorem RQ2.zero_a : (0 : RQ2).a = 0 := rfl

@[simp] theorem RQ2.zero_b : (0 : RQ2).b = 0 := rfl

@[simp] theorem RQ2.one_a : (1 : RQ2).a = 1 := rfl

@[simp] theorem RQ2.one_b : (1 : RQ2).b = 0 := rfl

instance : CommRing RQ2 where
  add_assoc x y z := by ext <;> simp <;> ring
  zero_add x := by ext <;> simp
  add_zero x := by ext <;> simp
  add_comm x y := by ext <;> simp <;> ring
  neg_add_cancel x := by ext <;> simp
  mul_assoc x y z := by ext <;> simp <;> ring
  one_mul x := by ext <;> simp
  mul_one x := by ext <;> simp
  left_distrib x y z := by ext <;> simp <;> ring
  right_distrib x y z := by ext <;> simp <;> ring
  zero_mul x := by ext <;> simp
  mul_zero x := by ext <;> simp
  mul_comm x y := by ext <;> simp <;> ring
  nsmul n x := ⟨n * x.a, n * x.b⟩
  nsmul_zero x := by ext <;> simp
  nsmul_succ n x := by ext <;> simp <;> ring
  zsmul n x := ⟨n * x.a, n * x.b⟩
  zsmul_zero' x := by ext <;> simp
  zsmul_succ' n x := by ext <;> push_cast <;> simp <;> ring
  zsmul_neg' n x := by ext <;> push_cast <;> simp <;> ring
  natCast n := ⟨n, 0⟩
  natCast_zero := by ext <;> simp
  natCast_succ n := by ext <;> simp

/-- The amplitude `1 / sqrt 2 = sqrt 2 / 2`, i.e. the entry of the Hadamard
matrix `H = 1/sqrt(2) * [[1, 1], [1, -1]]`. -/
def invSqrt2 : RQ2 := ⟨0, 1 / 2⟩

/-- Interpretation of `RQ2` in the real numbers. -/
noncomputable def RQ2.toReal (x : RQ2) : ℝ := (x.a : ℝ) + (x.b : ℝ) * Real.sqrt 2

theorem RQ2.toReal_mul (x y : RQ2) : (x * y).toReal = x.toReal * y.toReal := by
  have h2 : Real.sqrt 2 ^ 2 = 2 := Real.sq_sqrt (by norm_num)
  simp only [RQ2.toReal, RQ2.mul_a, RQ2.mul_b]
  push_cast
  linear_combination (-(x.b : ℝ) * (y.b : ℝ)) * h2

theorem RQ2.toReal_one : (1 : RQ2).toReal = 1 := by
  simp [RQ2.toReal]

theorem RQ2.toReal_zero : (0 : RQ2).toReal = 0 := by
  simp [RQ2.toReal]

theorem toReal_invSqrt2 : invSqrt2.toReal = (Real.sqrt 2)⁻¹ := by
  have h2 : Real.sqrt 2 * Real.sqrt 2 = 2 := Real.mul_self_sqrt (by norm_num)
  have hpos : (0:ℝ) < Real.sqrt 2 := Real.sqrt_pos.mpr (by norm_num)
  simp only [invSqrt2, RQ2.toReal]
  push_cast
  field_simp

theorem RQ2.toReal_pow (x : RQ2) (n : ℕ) : (x ^ n).toReal = x.toReal ^ n := by
  induction n with
  | zero => simpa using RQ2.toReal_one
  | succ k ih => rw [pow_succ, pow_succ, RQ2.toReal_mul, ih]

/-- Decision procedure for `0 < toReal x`, by rational arithmetic:
`a + b * sqrt 2 > 0` holds iff (`a >= 0` and `b >= 0` and not both zero), or
(`a >= 0 > b` and `a^2 > 2 b^2`), or (`b >= 0 > a` and `2 b^2 > a^2`). -/
def RQ2.pos (x : RQ2) : Bool :=
  if 0 ≤ x.a then
    if 0 ≤ x.b then decide (¬(x.a = 0 ∧ x.b = 0))
    else decide (2 * x.b ^ 2 < x.a ^ 2)
  else
    if 0 ≤ x.b then decide (x.a ^ 2 < 2 * x.b ^ 2)
    else false

theorem RQ2.pos_iff (x : RQ2) : x.pos = true ↔ 0 < x.toReal := by
  have h2 : Real.sqrt 2 * Real.sqrt 2 = 2 := Real.mul_self_sqrt (by norm_num)
  have hs0 : (0:ℝ) < Real.sqrt 2 := Real.sqrt_pos.mpr (by norm_num)
  rcases x with ⟨a, b⟩
  simp only [RQ2.pos, RQ2.toReal]
  split
  · next ha =>
    have ha' : (0:ℝ) ≤ (a:ℝ) := by exact_mod_cast ha
    split
    · next hb =>
      have hb' : (0:ℝ) ≤ (b:ℝ) := by exact_mod_cast hb
      simp only [decide_eq_true_eq]
      constructor
      · intro h
        rcases lt_or_eq_of_le ha with haq | haq
        · have h1 : (0:ℝ) < (a:ℝ) := by exact_mod_cast haq
          have h3 : (0:ℝ) ≤ (b:ℝ) * Real.sqrt 2 := mul_nonneg hb' (le_of_lt hs0)
          linarith
        · have hbq : b ≠ 0 := fun hb0 => h ⟨haq.symm, hb0⟩
          have h1 : (0:ℝ) < (b:ℝ) := by
            have := lt_of_le_of_ne hb (Ne.symm hbq)
            exact_mod_cast this
          have h3 : (0:ℝ) < (b:ℝ) * Real.sqrt 2 := mul_pos h1 hs0
          have h4 : (a:ℝ) = 0 := by exact_mod_cast haq.symm
          linarith
      · intro h hc
        rcases hc with ⟨ha0, hb0⟩
        rw [ha0, hb0] at h
        simp at h
    · next hb =>
      have hb' : (b:ℝ) < 0 := by
        have := lt_of_not_le hb
        exact_mod_cast this
      simp only [decide_eq_true_eq]
      have hnb : (0:ℝ) < -(b:ℝ) * Real.sqrt 2 := mul_pos (by linarith) hs0
      constructor
      · intro h
        have h' : (2:ℝ) * (b:ℝ) ^ 2 < (a:ℝ) ^ 2 := by exact_mod_cast h
        -- from 2 b^2 < a^2 with a >= 0 conclude -b sqrt2 < a, hence 0 < a + b sqrt2
        by_contra hc
        have hc' : (a:ℝ) ≤ -(b:ℝ) * Real.sqrt 2 := by
          simp only [not_lt] at hc
          linarith
        have hsq : (a:ℝ) * (a:ℝ) ≤ (-(b:ℝ) * Real.sqrt 2) * (-(b:ℝ) * Real.sqrt 2) :=
          mul_self_le_mul_self ha' hc'
        nlinarith
      · intro h
        have key : -(b:ℝ) * Real.sqrt 2 < (a:ℝ) := by linarith
        have hsq : (-(b:ℝ) * Real.sqrt 2) * (-(b:ℝ) * Real.sqrt 2) < (a:ℝ) * (a:ℝ) :=
          mul_self_lt_mul_self (le_of_lt hnb) key
        have : (2:ℝ) * (b:ℝ) ^ 2 < (a:ℝ) ^ 2 := by nlinarith
        exact_mod_cast this
  · next ha =>
    have ha' : (a:ℝ) < 0 := by
      have := lt_of_not_le ha
      exact_mod_cast this
    split
    · next hb =>
      have hb' : (0:ℝ) ≤ (b:ℝ) := by exact_mod_cast hb
      simp only [decide_eq_true_eq]
      have hbs : (0:ℝ) ≤ (b:ℝ) * Real.sqrt 2 := mul_nonneg hb' (le_of_lt hs0)
      constructor
      · intro h
        have h' : (a:ℝ) ^ 2 < 2 * (b:ℝ) ^ 2 := by exact_mod_cast h
        by_contra hc
        have hc' : (b:ℝ) * Real.sqrt 2 ≤ -(a:ℝ) := by
          simp only [not_lt] at hc
          linarith
        have hsq : ((b:ℝ) * Real.sqrt 2) * ((b:ℝ) * Real.sqrt 2) ≤ -(a:ℝ) * -(a:ℝ) :=
          mul_self_le_mul_self hbs hc'
        nlinarith
      · intro h
        have key : -(a:ℝ) < (b:ℝ) * Real.sqrt 2 := by linarith
        have hsq : -(a:ℝ) * -(a:ℝ) < ((b:ℝ) * Real.sqrt 2) * ((b:ℝ) * Real.sqrt 2) :=
          mul_self_lt_mul_self (by linarith) key
        have : (a:ℝ) ^ 2 < 2 * (b:ℝ) ^ 2 := by nlinarith
        exact_mod_cast this
    · next hb =>
      have hb' : (b:ℝ) < 0 := by
        have := lt_of_not_le hb
        exact_mod_cast this
      have hbs : (b:ℝ) * Real.sqrt 2 < 0 := mul_neg_of_neg_of_pos hb' hs0
      simp only [Bool.false_eq_true, false_iff, not_lt]
      linarith

/-! ### Bit-arithmetic toolbox

Helper lemmas about `|||`, `&&&` and `testBit` used to verify the
OR-increment enumeration trick of `range_fixed_bits` and the controlled-gate
index arithmetic of `cx` / `ccx`. -/


theorem mod_two_or (a b : ℕ) : (a ||| b) % 2 = if a % 2 = 1 ∨ b % 2 = 1 then 1 else 0 := by
  have h := Nat.testBit_lor a b 0
  simp only [Nat.testBit_zero] at h
  rcases Nat.mod_two_eq_zero_or_one a with h1 | h1 <;>
    rcases Nat.mod_two_eq_zero_or_one b with h2 | h2 <;>
      rcases Nat.mod_two_eq_zero_or_one (a ||| b) with h3 | h3 <;>
        simp [h1, h2, h3] at h ⊢

theorem mod_two_and (a b : ℕ) : (a &&& b) % 2 = if a % 2 = 1 ∧ b % 2 = 1 then 1 else 0 := by
  have h := Nat.testBit_land a b 0
  simp only [Nat.testBit_zero] at h
  rcases Nat.mod_two_eq_zero_or_one a with h1 | h1 <;>
    rcases Nat.mod_two_eq_zero_or_one b with h2 | h2 <;>
      rcases Nat.mod_two_eq_zero_or_one (a &&& b) with h3 | h3 <;>
        simp [h1, h2, h3] at h ⊢

theorem div_two_or (a b : ℕ) : (a ||| b) / 2 = a / 2 ||| b / 2 := by
  apply Nat.eq_of_testBit_eq
  intro i
  simp [Nat.testBit_div_two, Nat.testBit_lor]

theorem div_two_and (a b : ℕ) : (a &&& b) / 2 = a / 2 &&& b / 2 := by
  apply Nat.eq_of_testBit_eq
  intro i
  simp [Nat.testBit_div_two, Nat.testBit_land]

theorem le_or_self (a : ℕ) : ∀ b, a ≤ a ||| b := by
  induction a using Nat.strong_induction_on with
  | _ a ih =>
    intro b
    rcases Nat.eq_zero_or_pos a with rfl | ha
    · exact Nat.zero_le _
    · have hdiv : a / 2 < a := Nat.div_lt_self ha (by norm_num)
      have ih2 := ih (a / 2) hdiv (b / 2)
      have hd := div_two_or a b
      have hm := mod_two_or a b
      have h1 := Nat.div_add_mod (a ||| b) 2
      have h2 := Nat.div_add_mod a 2
      rcases Nat.mod_two_eq_zero_or_one a with hx | hx <;>
        rcases Nat.mod_two_eq_zero_or_one b with hy | hy <;>
          first
          | rw [if_pos (by omega)] at hm
            omega
          | rw [if_neg (by omega)] at hm
            omega

theorem or_eq_self_of_and_eq (a b : ℕ) (h : a &&& b = b) : a ||| b = a := by
  apply Nat.eq_of_testBit_eq
  intro i
  have hb := congrArg (fun x => Nat.testBit x i) h
  simp only [Nat.testBit_land] at hb
  simp only [Nat.testBit_lor]
  cases ha' : a.testBit i <;> cases hb' : b.testBit i <;> simp_all

theorem or_and_self (a b : ℕ) : (a ||| b) &&& b = b := by
  apply Nat.eq_of_testBit_eq
  intro i
  simp only [Nat.testBit_land, Nat.testBit_lor]
  cases a.testBit i <;> cases b.testBit i <;> simp

theorem covers_iff_testBit (a b : ℕ) :
    a &&& b = b ↔ ∀ i, b.testBit i = true → a.testBit i = true := by
  constructor
  · intro h i hi
    have hb := congrArg (fun x => Nat.testBit x i) h
    simp only [Nat.testBit_land, hi, Bool.and_true] at hb
    exact hb
  · intro h
    apply Nat.eq_of_testBit_eq
    intro i
    simp only [Nat.testBit_land]
    cases hb : b.testBit i
    · simp
    · simp [h i hb]

theorem mask_le_of_covers (x mask : ℕ) (h : x &&& mask = mask) : mask ≤ x := by
  calc mask = x &&& mask := h.symm
    _ ≤ x := Nat.and_le_left

/-- The key property of the OR-increment trick: for `x` covering `mask`,
`(x + 1) ||| mask` is a lower bound of every `mask`-covering number above `x`,
i.e. the enumeration skips no valid index. -/
theorem or_succ_min (x : ℕ) :
    ∀ mask y, x &&& mask = mask → y &&& mask = mask → x < y → (x + 1) ||| mask ≤ y := by
  induction x using Nat.strong_induction_on with
  | _ x ih =>
    intro mask y hx hy hxy
    have hxd : x / 2 &&& mask / 2 = mask / 2 := by
      have := congrArg (· / 2) hx
      simpa [div_two_and] using this
    have hyd : y / 2 &&& mask / 2 = mask / 2 := by
      have := congrArg (· / 2) hy
      simpa [div_two_and] using this
    have hxm := mod_two_and x mask
    have hym := mod_two_and y mask
    have hxmod : (x &&& mask) % 2 = mask % 2 := by rw [hx]
    have hymod : (y &&& mask) % 2 = mask % 2 := by rw [hy]
    rcases Nat.mod_two_eq_zero_or_one x with hx0 | hx0
    · -- x even: the mask has an even low bit, and (x+1) ||| mask = x + 1
      have hm0 : mask % 2 = 0 := by
        rcases Nat.mod_two_eq_zero_or_one mask with h | h
        · exact h
        · rw [hxm, if_neg (by omega)] at hxmod
          omega
      have hxp1 : (x + 1) % 2 = 1 := by omega
      have hdd : ((x + 1) ||| mask) / 2 = x / 2 := by
        rw [div_two_or]
        have hh : (x + 1) / 2 = x / 2 := by omega
        rw [hh]
        exact or_eq_self_of_and_eq _ _ hxd
      have hmm : ((x + 1) ||| mask) % 2 = 1 := by
        rw [mod_two_or, if_pos (by omega)]
      have h1 := Nat.div_add_mod ((x + 1) ||| mask) 2
      have h2 := Nat.div_add_mod x 2
      omega
    · -- x odd: recurse on the halves
      have hx1 : 0 < x := by omega
      have hdiv : x / 2 < x := Nat.div_lt_self hx1 (by norm_num)
      have hy2 : y % 2 ≤ 1 := by omega
      have hxy2 : x / 2 < y / 2 := by omega
      have ihh := ih (x / 2) hdiv (mask / 2) (y / 2) hxd hyd hxy2
      have hxp1 : (x + 1) % 2 = 0 := by omega
      have hdd : ((x + 1) ||| mask) / 2 = (x / 2 + 1) ||| mask / 2 := by
        rw [div_two_or]
        have hh : (x + 1) / 2 = x / 2 + 1 := by omega
        rw [hh]
      have hmm : ((x + 1) ||| mask) % 2 = mask % 2 := by
        rw [mod_two_or]
        rcases Nat.mod_two_eq_zero_or_one mask with h | h
        · rw [if_neg (by omega), h]
        · rw [if_pos (by omega), h]
      have hym2 : mask % 2 ≤ y % 2 := by
        rcases Nat.mod_two_eq_zero_or_one mask with h | h
        · omega
        · rcases Nat.mod_two_eq_zero_or_one y with hyy | hyy
          · rw [hym, if_neg (by omega)] at hymod
            omega
          · omega
      have h1 := Nat.div_add_mod ((x + 1) ||| mask) 2
      have h2 := Nat.div_add_mod y 2
      omega

theorem lt_or_succ_self (x mask : ℕ) : x < (x + 1) ||| mask :=
  Nat.lt_of_lt_of_le (Nat.lt_succ_self x) (le_or_self (x + 1) mask)

theorem add_eq_or_of_and_eq_zero (a : ℕ) :
    ∀ b, a &&& b = 0 → a + b = a ||| b := by
  induction a using Nat.strong_induction_on with
  | _ a ih =>
    intro b h
    rcases Nat.eq_zero_or_pos a with rfl | ha
    · simp
    · have hdiv : a / 2 < a := Nat.div_lt_self ha (by norm_num)
      have hd : a / 2 &&& b / 2 = 0 := by
        have := congrArg (· / 2) h
        simpa [div_two_and] using this
      have ih2 := ih (a / 2) hdiv (b / 2) hd
      have hm := mod_two_and a b
      have hmod : (a &&& b) % 2 = 0 := by rw [h]
      have hnotboth : ¬(a % 2 = 1 ∧ b % 2 = 1) := by
        intro hc
        rw [hm, if_pos hc] at hmod
        omega
      have hok := mod_two_or a b
      have h1 := Nat.div_add_mod (a ||| b) 2
      have h2 := Nat.div_add_mod a 2
      have h3 := Nat.div_add_mod b 2
      have hdor := div_two_or a b
      rcases Nat.mod_two_eq_zero_or_one a with hx | hx <;>
        rcases Nat.mod_two_eq_zero_or_one b with hy | hy <;>
          first
          | rw [if_pos (by omega)] at hok
            omega
          | rw [if_neg (by omega)] at hok
            omega

theorem sub_two_pow_eq_xor (o i : ℕ) (h : o.testBit i = true) : o - 2 ^ i = o ^^^ 2 ^ i := by
  have hbit : (o ^^^ 2 ^ i).testBit i = false := by
    simp [Nat.testBit_xor, h]
  have hdisj : (o ^^^ 2 ^ i) &&& 2 ^ i = 0 := by
    rw [Nat.and_two_pow, hbit]
    simp
  have hsum : (o ^^^ 2 ^ i) + 2 ^ i = o := by
    rw [add_eq_or_of_and_eq_zero _ _ hdisj]
    apply Nat.eq_of_testBit_eq
    intro j
    simp only [Nat.testBit_lor, Nat.testBit_xor, Nat.testBit_two_pow]
    rcases eq_or_ne i j with rfl | hij
    · simp [h]
    · simp [hij]
  omega

/-! ### The fixed-bit mask and its enumeration -/

/-- Big-endian mask of the fixed positions: mirrors
`mask = sum(1 << (n_bits - i - 1) for i in fixed_bits)` from
`range_fixed_bits` (the Python `fixed_bits` is a `set`, modelled as a
`Finset`). -/
def maskOfFixed (nBits : ℕ) (fixedBits : Finset ℕ) : ℕ :=
  ∑ i ∈ fixedBits, 1 <<< (nBits - i - 1)

theorem maskOfFixed_testBit (nBits : ℕ) (B : Finset ℕ) :
    (∀ p ∈ B, p < nBits) → ∀ i,
      (maskOfFixed nBits B).testBit i = decide (∃ p ∈ B, nBits - p - 1 = i) := by
  induction B using Finset.induction_on with
  | empty =>
    intro _ i
    simp [maskOfFixed, Nat.zero_testBit]
  | @insert a s ha ih =>
    intro hB i
    have ha' : a < nBits := hB a (Finset.mem_insert_self a s)
    have hs' : ∀ p ∈ s, p < nBits := fun p hp => hB p (Finset.mem_insert_of_mem hp)
    have ihs := ih hs'
    have hdis : 2 ^ (nBits - a - 1) &&& maskOfFixed nBits s = 0 := by
      apply Nat.eq_of_testBit_eq
      intro j
      rw [Nat.testBit_land, Nat.testBit_two_pow, ihs j, Nat.zero_testBit]
      by_cases h1 : nBits - a - 1 = j
      · subst h1
        have hno : ¬ ∃ p ∈ s, nBits - p - 1 = nBits - a - 1 := by
          rintro ⟨p, hp, hpe⟩
          have hpn := hs' p hp
          have hpa : p = a := by omega
          exact ha (hpa ▸ hp)
        simp [hno]
      · simp [h1]
    have hsum : maskOfFixed nBits (insert a s)
        = 2 ^ (nBits - a - 1) ||| maskOfFixed nBits s := by
      rw [maskOfFixed, Finset.sum_insert ha, Nat.one_shiftLeft, ← maskOfFixed]
      exact add_eq_or_of_and_eq_zero _ _ hdis
    rw [hsum, Nat.testBit_lor, Nat.testBit_two_pow, ihs i]
    rw [show (decide (nBits - a - 1 = i) || decide (∃ p ∈ s, nBits - p - 1 = i))
        = decide ((nBits - a - 1 = i) ∨ ∃ p ∈ s, nBits - p - 1 = i) by simp]
    apply decide_eq_decide.mpr
    constructor
    · rintro (h | ⟨p, hp, hpe⟩)
      · exact ⟨a, Finset.mem_insert_self a s, h⟩
      · exact ⟨p, Finset.mem_insert_of_mem hp, hpe⟩
    · rintro ⟨p, hp, hpe⟩
      rcases Finset.mem_insert.mp hp with rfl | hps
      · exact Or.inl hpe
      · exact Or.inr ⟨p, hps, hpe⟩

theorem maskOfFixed_insert (nBits a : ℕ) (s : Finset ℕ) (ha : a ∉ s)
    (hs' : ∀ p ∈ s, p < nBits) (ha' : a < nBits) :
    maskOfFixed nBits (insert a s) = 2 ^ (nBits - a - 1) ||| maskOfFixed nBits s := by
  have hdis : 2 ^ (nBits - a - 1) &&& maskOfFixed nBits s = 0 := by
    apply Nat.eq_of_testBit_eq
    intro j
    rw [Nat.testBit_land, Nat.testBit_two_pow, maskOfFixed_testBit nBits s hs' j,
      Nat.zero_testBit]
    by_cases h1 : nBits - a - 1 = j
    · subst h1
      have hno : ¬ ∃ p ∈ s, nBits - p - 1 = nBits - a - 1 := by
        rintro ⟨p, hp, hpe⟩
        have hpn := hs' p hp
        have hpa : p = a := by omega
        exact ha (hpa ▸ hp)
      simp [hno]
    · simp [h1]
  rw [maskOfFixed, Finset.sum_insert ha, Nat.one_shiftLeft, ← maskOfFixed]
  exact add_eq_or_of_and_eq_zero _ _ hdis

theorem maskOfFixed_lt (nBits : ℕ) (B : Finset ℕ) (hB : ∀ p ∈ B, p < nBits) :
    maskOfFixed nBits B < 2 ^ nBits := by
  apply Nat.lt_pow_two_of_testBit
  intro i hi
  rw [maskOfFixed_testBit nBits B hB]
  simp only [decide_eq_false_iff_not]
  rintro ⟨p, hp, hpe⟩
  have := hB p hp
  omega

/-- A number covers `maskOfFixed nBits B` iff its big-endian bit at every
fixed position is 1. -/
theorem covers_maskOfFixed_iff (nBits : ℕ) (B : Finset ℕ) (hB : ∀ p ∈ B, p < nBits)
    (x : ℕ) :
    x &&& maskOfFixed nBits B = maskOfFixed nBits B
      ↔ ∀ p ∈ B, x.testBit (nBits - p - 1) = true := by
  rw [covers_iff_testBit]
  constructor
  · intro h p hp
    apply h
    rw [maskOfFixed_testBit nBits B hB]
    exact decide_eq_true ⟨p, hp, rfl⟩
  · intro h i hi
    rw [maskOfFixed_testBit nBits B hB] at hi
    obtain ⟨p, hp, hpe⟩ := of_decide_eq_true hi
    exact hpe ▸ h p hp

theorem xor_two_pow_and_eq (x M t : ℕ) (hM : M.testBit t = false) :
    (x ^^^ 2 ^ t) &&& M = x &&& M := by
  apply Nat.eq_of_testBit_eq
  intro j
  rw [Nat.testBit_land, Nat.testBit_land, Nat.testBit_xor, Nat.testBit_two_pow]
  rcases eq_or_ne t j with rfl | hj
  · rw [hM]
    simp
  · simp [hj]

/-- Counting: exactly `2 ^ (nBits - |B|)` numbers below `2 ^ nBits` cover the
fixed-bit mask. -/
theorem card_covers (nBits : ℕ) (B : Finset ℕ) :
    (∀ p ∈ B, p < nBits) →
      ((Finset.range (2 ^ nBits)).filter
          (fun x => x &&& maskOfFixed nBits B = maskOfFixed nBits B)).card
        = 2 ^ (nBits - B.card) := by
  induction B using Finset.induction_on with
  | empty =>
    intro _
    simp [maskOfFixed]
  | @insert a s ha ih =>
    intro hB
    have ha' : a < nBits := hB a (Finset.mem_insert_self a s)
    have hs' : ∀ p ∈ s, p < nBits := fun p hp => hB p (Finset.mem_insert_of_mem hp)
    have hbitS : (maskOfFixed nBits s).testBit (nBits - a - 1) = false := by
      rw [maskOfFixed_testBit nBits s hs']
      simp only [decide_eq_false_iff_not]
      rintro ⟨p, hp, hpe⟩
      have := hs' p hp
      have : p = a := by omega
      exact ha (this ▸ hp)
    have hsum := maskOfFixed_insert nBits a s ha hs' ha'
    have hmem : ∀ x, (x &&& maskOfFixed nBits (insert a s) = maskOfFixed nBits (insert a s))
        ↔ (x &&& maskOfFixed nBits s = maskOfFixed nBits s
            ∧ x.testBit (nBits - a - 1) = true) := by
      intro x
      rw [hsum, covers_iff_testBit, covers_iff_testBit]
      constructor
      · intro h
        refine ⟨fun i hi => h i ?_, h (nBits - a - 1) ?_⟩
        · rw [Nat.testBit_lor, hi]
          simp
        · rw [Nat.testBit_lor, Nat.testBit_two_pow_self]
          simp
      · rintro ⟨h1, h2⟩ i hi
        rw [Nat.testBit_lor] at hi
        rcases Bool.or_eq_true_iff.mp hi with hp | hp
        · rw [Nat.testBit_two_pow] at hp
          have : nBits - a - 1 = i := of_decide_eq_true hp
          exact this ▸ h2
        · exact h1 i hp
    have hpowlt : 2 ^ (nBits - a - 1) < 2 ^ nBits :=
      Nat.pow_lt_pow_right (by norm_num) (by omega)
    have hA1eq : (Finset.range (2 ^ nBits)).filter
          (fun x => x &&& maskOfFixed nBits (insert a s) = maskOfFixed nBits (insert a s))
        = ((Finset.range (2 ^ nBits)).filter
            (fun x => x &&& maskOfFixed nBits s = maskOfFixed nBits s)).filter
          (fun x => x.testBit (nBits - a - 1) = true) := by
      ext x
      simp only [Finset.mem_filter, Finset.mem_range, hmem x]
      tauto
    set A := (Finset.range (2 ^ nBits)).filter
      (fun x => x &&& maskOfFixed nBits s = maskOfFixed nBits s) with hAdef
    set A1 := A.filter (fun x => x.testBit (nBits - a - 1) = true) with hA1def
    set A0 := A.filter (fun x => ¬ x.testBit (nBits - a - 1) = true) with hA0def
    have hsplit : A1.card + A0.card = A.card :=
      Finset.filter_card_add_filter_neg_card_eq_card _
    have hmaps : ∀ x ∈ A1, x ^^^ 2 ^ (nBits - a - 1) ∈ A0 := by
      intro x hx
      rw [hA1def, Finset.mem_filter] at hx
      obtain ⟨hxA, hxbit⟩ := hx
      rw [hAdef, Finset.mem_filter, Finset.mem_range] at hxA
      rw [hA0def, Finset.mem_filter, hAdef, Finset.mem_filter, Finset.mem_range]
      refine ⟨⟨Nat.xor_lt_two_pow hxA.1 hpowlt, ?_⟩, ?_⟩
      · rw [xor_two_pow_and_eq _ _ _ hbitS]
        exact hxA.2
      · rw [Nat.testBit_xor, hxbit, Nat.testBit_two_pow_self]
        simp
    have hmaps' : ∀ x ∈ A0, x ^^^ 2 ^ (nBits - a - 1) ∈ A1 := by
      intro x hx
      rw [hA0def, Finset.mem_filter] at hx
      obtain ⟨hxA, hxbit⟩ := hx
      rw [hAdef, Finset.mem_filter, Finset.mem_range] at hxA
      rw [hA1def, Finset.mem_filter, hAdef, Finset.mem_filter, Finset.mem_range]
      refine ⟨⟨Nat.xor_lt_two_pow hxA.1 hpowlt, ?_⟩, ?_⟩
      · rw [xor_two_pow_and_eq _ _ _ hbitS]
        exact hxA.2
      · have hxb0 : x.testBit (nBits - a - 1) = false := by
          cases hxb : x.testBit (nBits - a - 1)
          · rfl
          · exact absurd hxb hxbit
        rw [Nat.testBit_xor, hxb0, Nat.testBit_two_pow_self]
        simp
    have hbij : A1.card = A0.card := by
      apply Finset.card_bij' (fun x _ => x ^^^ 2 ^ (nBits - a - 1))
        (fun x _ => x ^^^ 2 ^ (nBits - a - 1)) hmaps hmaps'
      · intro x _
        exact Nat.xor_cancel_right _ x
      · intro x _
        exact Nat.xor_cancel_right _ x
    have hcardA : A.card = 2 ^ (nBits - s.card) := ih hs'
    have hcardIns : (insert a s).card = s.card + 1 := Finset.card_insert_of_not_mem ha
    have hle : (insert a s).card ≤ nBits := by
      have hsub : insert a s ⊆ Finset.range nBits :=
        fun p hp => Finset.mem_range.mpr (hB p hp)
      calc (insert a s).card ≤ (Finset.range nBits).card := Finset.card_le_card hsub
        _ = nBits := Finset.card_range nBits
    have hpow : 2 ^ (nBits - s.card) = 2 ^ (nBits - s.card - 1) * 2 := by
      rw [← pow_succ]
      congr 1
      omega
    rw [hA1eq, hcardIns]
    have hns : nBits - (s.card + 1) = nBits - s.card - 1 := by omega
    rw [hns]
    omega

/-- One step of the enumeration: `out = (out + 1) | mask`. -/
def nextMasked (mask x : ℕ) : ℕ := (x + 1) ||| mask

theorem nextMasked_iterate_covers (mask : ℕ) (k : ℕ) :
    ((nextMasked mask)^[k] mask) &&& mask = mask := by
  induction k with
  | zero => exact Nat.and_self mask
  | succ k ih =>
    rw [Function.iterate_succ_apply']
    exact or_and_self _ _

theorem nextMasked_iterate_strictMono (mask : ℕ) :
    StrictMono (fun k => (nextMasked mask)^[k] mask) :=
  strictMono_nat_of_lt_succ fun k => by
    simp only [Function.iterate_succ_apply']
    exact lt_or_succ_self _ _

theorem nextMasked_gapfree (mask : ℕ) (j y : ℕ) (hy : y &&& mask = mask) :
    y < (nextMasked mask)^[j] mask → ∃ i < j, (nextMasked mask)^[i] mask = y := by
  induction j with
  | zero =>
    intro hlt
    simp only [Function.iterate_zero_apply] at hlt
    exact absurd (mask_le_of_covers y mask hy) (by omega)
  | succ j ih =>
    intro hlt
    rw [Function.iterate_succ_apply'] at hlt
    rcases lt_trichotomy y ((nextMasked mask)^[j] mask) with h | h | h
    · obtain ⟨i, hi, he⟩ := ih h
      exact ⟨i, Nat.lt_succ_of_lt hi, he⟩
    · exact ⟨j, Nat.lt_succ_self j, h.symm⟩
    · have := or_succ_min _ mask y (nextMasked_iterate_covers mask j) hy h
      change y < ((nextMasked mask)^[j] mask + 1) ||| mask at hlt
      omega

theorem iterate_lt_pow (nBits : ℕ) (B : Finset ℕ) (hB : ∀ p ∈ B, p < nBits) :
    ∀ k < 2 ^ (nBits - B.card),
      (nextMasked (maskOfFixed nBits B))^[k] (maskOfFixed nBits B) < 2 ^ nBits := by
  intro k hk
  by_contra hcon
  push_neg at hcon
  have hsub : (Finset.range (2 ^ nBits)).filter
      (fun x => x &&& maskOfFixed nBits B = maskOfFixed nBits B)
      ⊆ (Finset.range k).image (fun i => (nextMasked (maskOfFixed nBits B))^[i] (maskOfFixed nBits B)) := by
    intro y hy
    rw [Finset.mem_filter, Finset.mem_range] at hy
    obtain ⟨i, hi, he⟩ := nextMasked_gapfree (maskOfFixed nBits B) k y hy.2
      (lt_of_lt_of_le hy.1 hcon)
    exact Finset.mem_image.mpr ⟨i, Finset.mem_range.mpr hi, he⟩
  have hcard := Finset.card_le_card hsub
  rw [card_covers nBits B hB] at hcard
  have himg : ((Finset.range k).image
      (fun i => (nextMasked (maskOfFixed nBits B))^[i] (maskOfFixed nBits B))).card ≤ k := by
    calc _ ≤ (Finset.range k).card := Finset.card_image_le
      _ = k := Finset.card_range k
  omega

theorem image_iterate_eq (nBits : ℕ) (B : Finset ℕ) (hB : ∀ p ∈ B, p < nBits) :
    (Finset.range (2 ^ (nBits - B.card))).image
        (fun i => (nextMasked (maskOfFixed nBits B))^[i] (maskOfFixed nBits B))
      = (Finset.range (2 ^ nBits)).filter
        (fun x => x &&& maskOfFixed nBits B = maskOfFixed nBits B) := by
  apply Finset.eq_of_subset_of_card_le
  · intro y hy
    obtain ⟨i, hi, rfl⟩ := Finset.mem_image.mp hy
    rw [Finset.mem_range] at hi
    rw [Finset.mem_filter, Finset.mem_range]
    exact ⟨iterate_lt_pow nBits B hB i hi, nextMasked_iterate_covers _ i⟩
  · rw [card_covers nBits B hB,
      Finset.card_image_of_injOn ((nextMasked_iterate_strictMono (maskOfFixed nBits B)).injective.injOn),
      Finset.card_range]

theorem enum_list_eq (nBits : ℕ) (B : Finset ℕ) (hB : ∀ p ∈ B, p < nBits) :
    (List.range (2 ^ (nBits - B.card))).map
        (fun i => (nextMasked (maskOfFixed nBits B))^[i] (maskOfFixed nBits B))
      = (List.range (2 ^ nBits)).filter
        (fun x => decide (x &&& maskOfFixed nBits B = maskOfFixed nBits B)) := by
  haveI : IsAntisymm ℕ (· < ·) := ⟨fun u v h1 h2 => absurd (lt_trans h1 h2) (lt_irrefl u)⟩
  have hGnodup : ((List.range (2 ^ (nBits - B.card))).map
      (fun i => (nextMasked (maskOfFixed nBits B))^[i] (maskOfFixed nBits B))).Nodup :=
    (List.nodup_range _).map ((nextMasked_iterate_strictMono (maskOfFixed nBits B)).injective)
  have hLnodup : ((List.range (2 ^ nBits)).filter
      (fun x => decide (x &&& maskOfFixed nBits B = maskOfFixed nBits B))).Nodup :=
    (List.nodup_range _).filter _
  have hGsorted : List.Sorted (· < ·) ((List.range (2 ^ (nBits - B.card))).map
      (fun i => (nextMasked (maskOfFixed nBits B))^[i] (maskOfFixed nBits B))) := by
    rw [List.Sorted, List.pairwise_map]
    exact (List.pairwise_lt_range _).imp
      (fun h => nextMasked_iterate_strictMono (maskOfFixed nBits B) h)
  have hLsorted : List.Sorted (· < ·) ((List.range (2 ^ nBits)).filter
      (fun x => decide (x &&& maskOfFixed nBits B = maskOfFixed nBits B))) :=
    List.Pairwise.sublist (List.filter_sublist _) (List.pairwise_lt_range _)
  apply List.eq_of_perm_of_sorted _ hGsorted hLsorted
  apply (List.perm_ext_iff_of_nodup hGnodup hLnodup).mpr
  intro x
  have himg := image_iterate_eq nBits B hB
  constructor
  · intro hx
    obtain ⟨i, hi, rfl⟩ := List.mem_map.mp hx
    rw [List.mem_range] at hi
    have : (nextMasked (maskOfFixed nBits B))^[i] (maskOfFixed nBits B)
        ∈ (Finset.range (2 ^ nBits)).filter
          (fun y => y &&& maskOfFixed nBits B = maskOfFixed nBits B) := by
      rw [← himg]
      exact Finset.mem_image.mpr ⟨i, Finset.mem_range.mpr hi, rfl⟩
    rw [Finset.mem_filter, Finset.mem_range] at this
    rw [List.mem_filter, List.mem_range]
    exact ⟨this.1, decide_eq_true this.2⟩
  · intro hx
    rw [List.mem_filter, List.mem_range] at hx
    have : x ∈ (Finset.range (2 ^ nBits)).filter
        (fun y => y &&& maskOfFixed nBits B = maskOfFixed nBits B) := by
      rw [Finset.mem_filter, Finset.mem_range]
      exact ⟨hx.1, of_decide_eq_true hx.2⟩
    rw [← himg] at this
    obtain ⟨i, hi, he⟩ := Finset.mem_image.mp this
    rw [Finset.mem_range] at hi
    exact List.mem_map.mpr ⟨i, List.mem_range.mpr hi, he⟩

/-! ### The bit-index iterators from qclight.utils -/

/-- Embedding of `range_fixed_bits(n_bits, fixed_bits)` (the generator is
modelled as the list of its yields).  A Python `int` argument is first
wrapped into a singleton set, so the `Finset` input covers both cases.
Mirrors: validation (`OutOfRangeError` when some index is `>= n_bits`),
`mask = sum(1 << (n_bits - i - 1) ...)`, the initial `yield mask` and
`(2**n_bits >> len(fixed_bits)) - 1` iterations of `out = (out + 1) | mask`. -/
def range_fixed_bits (nBits : ℕ) (fixedBits : Finset ℕ) : Except String (List ℕ) :=
  if ∃ i ∈ fixedBits, nBits ≤ i then .error "OutOfRangeError"
  else
    let mask := maskOfFixed nBits fixedBits
    .ok (mask :: (List.range (2 ^ nBits >>> fixedBits.card - 1)).map
      (fun k => (nextMasked mask)^[k + 1] mask))

/-- Embedding of `range_fixed_bits_switch(n_bits, fixed_bits, switch_bit)`.
The mask sums over the list `[*fixed_bits, switch_bit]`; each yield is the
pair `(out & switch_bit_mask, out)` where `switch_bit_mask` is the
complement `~(1 << (n_bits - switch_bit - 1))`.  On unbounded nonnegative
integers `a & ~b` equals `a - (a & b)`, which is how the complement-AND is
expressed on `Nat`. -/
def range_fixed_bits_switch (nBits : ℕ) (fixedBits : Finset ℕ) (switchBit : ℕ) :
    Except String (List (ℕ × ℕ)) :=
  if (∃ i ∈ fixedBits, nBits ≤ i) ∨ nBits ≤ switchBit then .error "OutOfRangeError"
  else
    let offset := fixedBits.card + 1
    let mask := maskOfFixed nBits fixedBits + 1 <<< (nBits - switchBit - 1)
    let switchClear := fun (o : ℕ) => o - (o &&& 1 <<< (nBits - switchBit - 1))
    .ok ((switchClear mask, mask) :: (List.range (2 ^ nBits >>> offset - 1)).map
      (fun k => (switchClear ((nextMasked mask)^[k + 1] mask),
        (nextMasked mask)^[k + 1] mask)))

theorem cons_map_iterate_eq (mask c : ℕ) (hc : 0 < c) :
    mask :: (List.range (c - 1)).map (fun k => (nextMasked mask)^[k + 1] mask)
      = (List.range c).map (fun k => (nextMasked mask)^[k] mask) := by
  obtain ⟨m, rfl⟩ : ∃ m, c = m + 1 := ⟨c - 1, by omega⟩
  rw [List.range_succ_eq_map, List.map_cons, List.map_map]
  simp only [Nat.add_sub_cancel]
  congr 1

theorem card_le_of_bounded (nBits : ℕ) (B : Finset ℕ) (hB : ∀ p ∈ B, p < nBits) :
    B.card ≤ nBits := by
  have hsub : B ⊆ Finset.range nBits := fun p hp => Finset.mem_range.mpr (hB p hp)
  calc B.card ≤ (Finset.range nBits).card := Finset.card_le_card hsub
    _ = nBits := Finset.card_range nBits

theorem shiftRight_pow_count (nBits d : ℕ) (hd : d ≤ nBits) :
    2 ^ nBits >>> d = 2 ^ (nBits - d) := by
  rw [Nat.shiftRight_eq_div_pow, Nat.pow_div hd (by norm_num)]

/-- The list produced by `range_fixed_bits` on valid input, rewritten from
the yield-loop form to the filtered-range form. -/
theorem range_fixed_bits_eq_filter (nBits : ℕ) (B : Finset ℕ) (hB : ∀ p ∈ B, p < nBits) :
    range_fixed_bits nBits B
      = .ok ((List.range (2 ^ nBits)).filter
          (fun x => decide (x &&& maskOfFixed nBits B = maskOfFixed nBits B))) := by
  have hnotr : ¬ ∃ i ∈ B, nBits ≤ i := by
    rintro ⟨i, hi, h⟩
    exact absurd (hB i hi) (by omega)
  have hd : B.card ≤ nBits := card_le_of_bounded nBits B hB
  have hcnt : 2 ^ nBits >>> B.card = 2 ^ (nBits - B.card) := shiftRight_pow_count nBits B.card hd
  have hpos : 0 < 2 ^ nBits >>> B.card := by
    rw [hcnt]
    positivity
  rw [range_fixed_bits, if_neg hnotr]
  dsimp only
  congr 1
  rw [cons_map_iterate_eq _ _ hpos, hcnt]
  exact enum_list_eq nBits B hB

/-- C3 (main content): on valid input `range_fixed_bits` succeeds and yields,
in ascending numeric order, exactly the indices in `[0, 2^n_bits)` whose
big-endian bits at all fixed positions are 1, and it yields
`2 ^ (n_bits - |fixed_bits|)` of them. -/
theorem range_fixed_bits_spec (nBits : ℕ) (B : Finset ℕ)
    (hn : 0 < nBits) (hB : ∀ p ∈ B, p < nBits) :
    ∃ L : List ℕ, range_fixed_bits nBits B = .ok L ∧
      List.Sorted (· < ·) L ∧
      (∀ x : ℕ, x ∈ L ↔ x < 2 ^ nBits ∧ ∀ p ∈ B, x.testBit (nBits - p - 1) = true) ∧
      L.length = 2 ^ (nBits - B.card) := by
  refine ⟨_, range_fixed_bits_eq_filter nBits B hB, ?_, ?_, ?_⟩
  · exact List.Pairwise.sublist (List.filter_sublist _) (List.pairwise_lt_range _)
  · intro x
    rw [List.mem_filter, List.mem_range, decide_eq_true_eq,
      covers_maskOfFixed_iff nBits B hB x]
  · rw [← enum_list_eq nBits B hB, List.length_map, List.length_range]

/-- Closed witness instantiating C3 at the spec example
`enumerate_fixed(3, {0})`. -/
theorem range_fixed_bits_spec_witness :
    ∃ L : List ℕ, range_fixed_bits 3 {0} = .ok L ∧
      List.Sorted (· < ·) L ∧
      (∀ x : ℕ, x ∈ L ↔ x < 2 ^ 3 ∧ ∀ p ∈ ({0} : Finset ℕ), x.testBit (3 - p - 1) = true) ∧
      L.length = 2 ^ (3 - ({0} : Finset ℕ).card) :=
  range_fixed_bits_spec 3 {0} (by decide) (by decide)

/-- C2 (main content): on valid input with the switch bit disjoint from the
fixed bits, `range_fixed_bits_switch` succeeds and yields, in ascending order
of the second component, exactly the pairs `(idx0, idx1)` where `idx1` ranges
over the indices with all fixed bits and the switch bit equal to 1, and
`idx0` is `idx1` with the switch bit cleared; it yields
`2 ^ (n_bits - |fixed_bits| - 1)` pairs. -/
theorem range_fixed_bits_switch_spec (nBits : ℕ) (B : Finset ℕ) (s : ℕ)
    (hn : 0 < nBits) (hB : ∀ p ∈ B, p < nBits) (hs : s < nBits) (hsB : s ∉ B) :
    ∃ P : List (ℕ × ℕ), range_fixed_bits_switch nBits B s = .ok P ∧
      List.Sorted (fun p q => p.2 < q.2) P ∧
      (∀ pr : ℕ × ℕ, pr ∈ P ↔
        pr.2 < 2 ^ nBits ∧
        (∀ p ∈ B, pr.2.testBit (nBits - p - 1) = true) ∧
        pr.2.testBit (nBits - s - 1) = true ∧
        pr.1 = pr.2 ^^^ 2 ^ (nBits - s - 1)) ∧
      (∀ pr ∈ P, (∀ p ∈ B, pr.1.testBit (nBits - p - 1) = true) ∧
        pr.1.testBit (nBits - s - 1) = false ∧ pr.1 < 2 ^ nBits) ∧
      P.length = 2 ^ (nBits - B.card - 1) := by
  have hB' : ∀ p ∈ insert s B, p < nBits := by
    intro p hp
    rcases Finset.mem_insert.mp hp with rfl | hp'
    · exact hs
    · exact hB p hp'
  have hcard' : (insert s B).card = B.card + 1 := Finset.card_insert_of_not_mem hsB
  have hd' : B.card + 1 ≤ nBits := by
    rw [← hcard']
    exact card_le_of_bounded _ _ hB'
  have hmask : maskOfFixed nBits B + 1 <<< (nBits - s - 1) = maskOfFixed nBits (insert s B) := by
    rw [maskOfFixed, maskOfFixed, Finset.sum_insert hsB, add_comm]
  have hnotr : ¬ ((∃ i ∈ B, nBits ≤ i) ∨ nBits ≤ s) := by
    push_neg
    refine ⟨fun i hi => ?_, by omega⟩
    have := hB i hi
    omega
  have hcnt : 2 ^ nBits >>> (B.card + 1) = 2 ^ (nBits - (insert s B).card) := by
    rw [hcard']
    exact shiftRight_pow_count _ _ hd'
  have hpos : 0 < 2 ^ nBits >>> (B.card + 1) := by
    rw [hcnt]
    positivity
  have hkk : nBits - s - 1 < nBits := by omega
  have hpowlt : 2 ^ (nBits - s - 1) < 2 ^ nBits := Nat.pow_lt_pow_right (by norm_num) hkk
  have hsbitM : ∀ o : ℕ, o.testBit (nBits - s - 1) = true →
      o - (o &&& 1 <<< (nBits - s - 1)) = o ^^^ 2 ^ (nBits - s - 1) := by
    intro o hbit
    rw [Nat.one_shiftLeft, Nat.and_two_pow, hbit]
    simp only [Bool.toNat_true, one_mul]
    exact sub_two_pow_eq_xor o _ hbit
  have hcovM : ∀ x : ℕ, (x &&& maskOfFixed nBits (insert s B) = maskOfFixed nBits (insert s B))
      ↔ ((∀ p ∈ B, x.testBit (nBits - p - 1) = true) ∧ x.testBit (nBits - s - 1) = true) := by
    intro x
    rw [covers_maskOfFixed_iff nBits (insert s B) hB' x]
    constructor
    · intro h
      exact ⟨fun p hp => h p (Finset.mem_insert_of_mem hp), h s (Finset.mem_insert_self s B)⟩
    · rintro ⟨h1, h2⟩ p hp
      rcases Finset.mem_insert.mp hp with rfl | hp'
      · exact h2
      · exact h1 p hp'
  have hok : range_fixed_bits_switch nBits B s
      = .ok (((List.range (2 ^ nBits)).filter
          (fun x => decide (x &&& maskOfFixed nBits (insert s B) = maskOfFixed nBits (insert s B)))).map
            (fun o => (o - (o &&& 1 <<< (nBits - s - 1)), o))) := by
    rw [range_fixed_bits_switch, if_neg hnotr]
    dsimp only
    rw [hmask]
    congr 1
    have hassemble : ((maskOfFixed nBits (insert s B)
          - (maskOfFixed nBits (insert s B) &&& 1 <<< (nBits - s - 1)),
          maskOfFixed nBits (insert s B)) ::
        (List.range (2 ^ nBits >>> (B.card + 1) - 1)).map
          (fun k => ((nextMasked (maskOfFixed nBits (insert s B)))^[k + 1] (maskOfFixed nBits (insert s B))
              - ((nextMasked (maskOfFixed nBits (insert s B)))^[k + 1] (maskOfFixed nBits (insert s B))
                  &&& 1 <<< (nBits - s - 1)),
            (nextMasked (maskOfFixed nBits (insert s B)))^[k + 1] (maskOfFixed nBits (insert s B)))))
        = ((maskOfFixed nBits (insert s B)
              :: (List.range (2 ^ nBits >>> (B.card + 1) - 1)).map
                (fun k => (nextMasked (maskOfFixed nBits (insert s B)))^[k + 1] (maskOfFixed nBits (insert s B)))).map
            (fun o => (o - (o &&& 1 <<< (nBits - s - 1)), o))) := by
      rw [List.map_cons, List.map_map]
      rfl
    rw [hassemble, cons_map_iterate_eq _ _ hpos, hcnt, enum_list_eq nBits (insert s B) hB']
  refine ⟨_, hok, ?_, ?_, ?_, ?_⟩
  · rw [List.Sorted, List.pairwise_map]
    exact List.Pairwise.sublist (List.filter_sublist _) (List.pairwise_lt_range _)
  · intro pr
    constructor
    · intro hpr
      obtain ⟨o, ho, rfl⟩ := List.mem_map.mp hpr
      rw [List.mem_filter, List.mem_range, decide_eq_true_eq] at ho
      obtain ⟨holt, hocov⟩ := ho
      obtain ⟨hBbits, hsbit⟩ := (hcovM o).mp hocov
      exact ⟨holt, hBbits, hsbit, hsbitM o hsbit⟩
    · rintro ⟨hlt, hBbits, hsbit, hfst⟩
      apply List.mem_map.mpr
      refine ⟨pr.2, ?_, ?_⟩
      · rw [List.mem_filter, List.mem_range, decide_eq_true_eq]
        exact ⟨hlt, (hcovM pr.2).mpr ⟨hBbits, hsbit⟩⟩
      · rw [hsbitM pr.2 hsbit, ← hfst]
  · intro pr hpr
    obtain ⟨o, ho, rfl⟩ := List.mem_map.mp hpr
    rw [List.mem_filter, List.mem_range, decide_eq_true_eq] at ho
    obtain ⟨holt, hocov⟩ := ho
    obtain ⟨hBbits, hsbit⟩ := (hcovM o).mp hocov
    rw [hsbitM o hsbit]
    refine ⟨?_, ?_, Nat.xor_lt_two_pow holt hpowlt⟩
    · intro p hp
      rw [Nat.testBit_xor, Nat.testBit_two_pow]
      have hne : ¬ (nBits - s - 1 = nBits - p - 1) := by
        have hpn := hB p hp
        intro hc
        have : p = s := by omega
        exact hsB (this ▸ hp)
      simp [hne, hBbits p hp]
    · rw [Nat.testBit_xor, hsbit, Nat.testBit_two_pow_self]
      simp
  · rw [List.length_map, ← enum_list_eq nBits (insert s B) hB', List.length_map,
      List.length_range, hcard']
    have hsub3 : nBits - (B.card + 1) = nBits - B.card - 1 := by omega
    rw [hsub3]

/-- Closed witness instantiating C2 at the spec example
`enumerate_fixed_with_switch(3, {0}, 1)`. -/
theorem range_fixed_bits_switch_spec_witness :
    ∃ P : List (ℕ × ℕ), range_fixed_bits_switch 3 {0} 1 = .ok P ∧
      List.Sorted (fun p q => p.2 < q.2) P ∧
      (∀ pr : ℕ × ℕ, pr ∈ P ↔
        pr.2 < 2 ^ 3 ∧
        (∀ p ∈ ({0} : Finset ℕ), pr.2.testBit (3 - p - 1) = true) ∧
        pr.2.testBit (3 - 1 - 1) = true ∧
        pr.1 = pr.2 ^^^ 2 ^ (3 - 1 - 1)) ∧
      (∀ pr ∈ P, (∀ p ∈ ({0} : Finset ℕ), pr.1.testBit (3 - p - 1) = true) ∧
        pr.1.testBit (3 - 1 - 1) = false ∧ pr.1 < 2 ^ 3) ∧
      P.length = 2 ^ (3 - ({0} : Finset ℕ).card - 1) :=
  range_fixed_bits_switch_spec 3 {0} 1 (by decide) (by decide) (by decide) (by decide)

deriving instance DecidableEq for Except

theorem mod_two_xor (a b : ℕ) : (a ^^^ b) % 2 = if (a % 2 = 1) ≠ (b % 2 = 1) then 1 else 0 := by
  have h := Nat.testBit_xor a b 0
  simp only [Nat.testBit_zero] at h
  rcases Nat.mod_two_eq_zero_or_one a with h1 | h1 <;>
    rcases Nat.mod_two_eq_zero_or_one b with h2 | h2 <;>
      rcases Nat.mod_two_eq_zero_or_one (a ^^^ b) with h3 | h3 <;>
        simp [h1, h2, h3] at h ⊢

theorem div_two_xor (a b : ℕ) : (a ^^^ b) / 2 = a / 2 ^^^ b / 2 := by
  apply Nat.eq_of_testBit_eq
  intro i
  simp [Nat.testBit_div_two, Nat.testBit_xor]

theorem and_two_pow_eq_zero_iff (i b : ℕ) : i &&& 2 ^ b = 0 ↔ i.testBit b = false := by
  have hp : 0 < 2 ^ b := Nat.pos_pow_of_pos b (by norm_num)
  rw [Nat.and_two_pow]
  cases hb : i.testBit b
  · simp
  · simp only [Bool.toNat_true, one_mul]
    constructor
    · intro h
      omega
    · intro h
      exact absurd h (by simp)

theorem and_two_pow_ne_zero_iff (i b : ℕ) : ¬ (i &&& 2 ^ b = 0) ↔ i.testBit b = true := by
  rw [and_two_pow_eq_zero_iff]
  cases i.testBit b <;> simp

/-- For a number with bit `b` clear, setting the bit by `|||`, `^^^` or `+`
all agree. -/
theorem or_xor_add_two_pow (i b : ℕ) (h : i.testBit b = false) :
    i ||| 2 ^ b = i + 2 ^ b ∧ i ^^^ 2 ^ b = i + 2 ^ b := by
  have hdis : i &&& 2 ^ b = 0 := (and_two_pow_eq_zero_iff i b).mpr h
  have hor : i ||| 2 ^ b = i + 2 ^ b := (add_eq_or_of_and_eq_zero i (2 ^ b) hdis).symm
  have hbit : (i + 2 ^ b).testBit b = true := by
    rw [← hor, Nat.testBit_lor, Nat.testBit_two_pow_self]
    simp
  have hxor : (i + 2 ^ b) ^^^ 2 ^ b = i := by
    rw [← sub_two_pow_eq_xor _ _ hbit]
    omega
  refine ⟨hor, ?_⟩
  have := congrArg (fun z => z ^^^ 2 ^ b) hxor
  simp only at this
  rw [Nat.xor_cancel_right] at this
  omega

/-! ### Matrices, the gate catalog (`qclight.gates.Gate`) and `np.kron` -/

/-- Square numpy-style matrix with flat natural-number indexing ("size" is
the side length).  Entries outside the `size × size` extent are 0, recording
the array bounds of the original. -/
structure Mat where
  size : ℕ
  entry : ℕ → ℕ → RQ2

/-- Gate.X = [[0, 1], [1, 0]] -/
def gateX : Mat := ⟨2, fun i j => if (i = 0 ∧ j = 1) ∨ (i = 1 ∧ j = 0) then 1 else 0⟩

/-- Gate.I = [[1, 0], [0, 1]] -/
def gateI : Mat := ⟨2, fun i j => if i = j ∧ i < 2 then 1 else 0⟩

/-- Gate.H = 1/sqrt(2) * [[1, 1], [1, -1]] -/
def gateH : Mat := ⟨2, fun i j =>
  if i = 1 ∧ j = 1 then -invSqrt2
  else if i < 2 ∧ j < 2 then invSqrt2
  else 0⟩

/-- Gate.Z = [[1, 0], [0, -1]] -/
def gateZ : Mat := ⟨2, fun i j =>
  if i = 0 ∧ j = 0 then 1 else if i = 1 ∧ j = 1 then -1 else 0⟩

/-- `np.kron` on square matrices, with the flat big-endian index layout
numpy uses: `(A ⊗ B)[i, j] = A[i / bs, j / bs] * B[i % bs, j % bs]`. -/
def kron (A B : Mat) : Mat :=
  ⟨A.size * B.size, fun i j =>
    A.entry (i / B.size) (j / B.size) * B.entry (i % B.size) (j % B.size)⟩

/-- Tensor product of a nonempty gate list: `v = gates[0]` then
`v = np.kron(v, gate)` over the rest, as in `QCLCircuit.tp`. -/
def tpl (g : Mat) (gs : List Mat) : Mat := gs.foldl kron g

/-- `QCLCircuit.tp`: raises `ValueError` on an empty list. -/
def tp (gates : List Mat) : Except String Mat :=
  match gates with
  | [] => .error "ValueError: ql must not be empty"
  | g :: rest => .ok (tpl g rest)

theorem tpl_size (g : Mat) (gs : List Mat) (hg : g.size = 2) :
    (∀ m ∈ gs, m.size = 2) → (tpl g gs).size = 2 ^ (gs.length + 1) := by
  induction gs using List.reverseRecOn with
  | nil =>
    intro _
    simpa [tpl] using hg
  | append_singleton l m ih =>
    intro hgs
    have h1 : (tpl g l).size = 2 ^ (l.length + 1) :=
      ih (fun x hx => hgs x (List.mem_append_left _ hx))
    have h2 : m.size = 2 := hgs m (List.mem_append_right _ (List.mem_singleton_self m))
    show ((l ++ [m]).foldl kron g).size = _
    rw [List.foldl_append]
    show ((l.foldl kron g).size * m.size) = _
    rw [show (l.foldl kron g).size = 2 ^ (l.length + 1) from h1, h2, List.length_append]
    simp [pow_succ]

/-- The standard basis row vector with a 1 in slot `k`. -/
def eBasis (k : ℕ) : ℕ → RQ2 := fun i => if i = k then 1 else 0

/-- Choice of gate per qubit for an expanded X-layer: `xg true` is `X`,
`xg false` is the identity. -/
def xg (b : Bool) : Mat := if b then gateX else gateI

theorem xg_size (b : Bool) : (xg b).size = 2 := by cases b <;> rfl

/-- Big-endian numeric value of a bit list. -/
def bitsVal (bs : List Bool) : ℕ := bs.foldl (fun a bb => 2 * a + bb.toNat) 0

theorem bitsVal_append (bs : List Bool) (b : Bool) :
    bitsVal (bs ++ [b]) = 2 * bitsVal bs + b.toNat := by
  simp [bitsVal, List.foldl_append]

theorem gateI_entry (x y : ℕ) (hx : x < 2) : gateI.entry x y = if y = x then 1 else 0 := by
  show (if x = y ∧ x < 2 then (1:RQ2) else 0) = _
  by_cases h : y = x
  · rw [if_pos ⟨h.symm, hx⟩, if_pos h]
  · rw [if_neg (fun hc => h hc.1.symm), if_neg h]

theorem gateX_entry (x y : ℕ) (hx : x < 2) : gateX.entry x y = if y = 1 - x then 1 else 0 := by
  show (if (x = 0 ∧ y = 1) ∨ (x = 1 ∧ y = 0) then (1:RQ2) else 0) = _
  have hx2 : x = 0 ∨ x = 1 := by omega
  rcases hx2 with rfl | rfl
  · by_cases h : y = 1 <;> simp [h]
  · by_cases h : y = 0 <;> simp [h]

/-- Rows of a tensor product of `X` / identity factors: row `k` is the basis
vector at `k` XOR the big-endian mask of the `X` positions. -/
theorem tpl_xg_row (b : Bool) (bs : List Bool) :
    ∀ k < 2 ^ (bs.length + 1), ∀ j,
      (tpl (xg b) (bs.map xg)).entry k j
        = if j = k ^^^ bitsVal (b :: bs) then 1 else 0 := by
  induction bs using List.reverseRecOn with
  | nil =>
    intro k hk j
    have hklt : k < 2 := by simpa using hk
    have hv : bitsVal [b] = b.toNat := by cases b <;> rfl
    show (xg b).entry k j = _
    rw [hv]
    cases b
    · rw [show xg false = gateI from rfl, gateI_entry k j hklt]
      simp
    · rw [show xg true = gateX from rfl, gateX_entry k j hklt]
      have hx1 : k ^^^ Bool.toNat true = 1 - k := by
        have hk2 : k = 0 ∨ k = 1 := by omega
        rcases hk2 with rfl | rfl <;> decide
      rw [hx1]
  | append_singleton l b' ih =>
    intro k hk j
    have hlen : (l ++ [b']).length = l.length + 1 := by simp
    rw [hlen] at hk
    have hk2 : k / 2 < 2 ^ (l.length + 1) := by
      have hpow : 2 ^ (l.length + 1 + 1) = 2 ^ (l.length + 1) * 2 := pow_succ 2 _
      omega
    have hstep : (tpl (xg b) ((l ++ [b']).map xg)).entry k j
        = (tpl (xg b) (l.map xg)).entry (k / 2) (j / 2) * (xg b').entry (k % 2) (j % 2) := by
      rw [List.map_append]
      show ((l.map xg ++ [xg b']).foldl kron (xg b)).entry k j = _
      rw [List.foldl_append]
      show (kron ((l.map xg).foldl kron (xg b)) (xg b')).entry k j = _
      show ((l.map xg).foldl kron (xg b)).entry (k / (xg b').size) (j / (xg b').size)
          * (xg b').entry (k % (xg b').size) (j % (xg b').size) = _
      rw [xg_size]
      rfl
    rw [hstep, ih (k / 2) hk2 (j / 2)]
    have hMval : bitsVal (b :: (l ++ [b'])) = 2 * bitsVal (b :: l) + b'.toNat := by
      rw [show (b :: (l ++ [b'])) = (b :: l) ++ [b'] from rfl, bitsVal_append]
    rw [hMval]
    have hvlt : b'.toNat < 2 := by cases b' <;> decide
    have hMdiv : (2 * bitsVal (b :: l) + b'.toNat) / 2 = bitsVal (b :: l) := by omega
    have hMmod : (2 * bitsVal (b :: l) + b'.toNat) % 2 = b'.toNat := by omega
    have hxdiv : (k ^^^ (2 * bitsVal (b :: l) + b'.toNat)) / 2 = k / 2 ^^^ bitsVal (b :: l) := by
      rw [div_two_xor, hMdiv]
    have hxmod := mod_two_xor k (2 * bitsVal (b :: l) + b'.toNat)
    rw [hMmod] at hxmod
    have hsplit := Nat.div_add_mod (k ^^^ (2 * bitsVal (b :: l) + b'.toNat)) 2
    have hjsplit := Nat.div_add_mod j 2
    have hksplit := Nat.div_add_mod k 2
    by_cases hhi : j / 2 = k / 2 ^^^ bitsVal (b :: l)
    · rw [if_pos hhi, one_mul]
      cases b'
      · rw [show xg false = gateI from rfl, gateI_entry _ _ (Nat.mod_lt k (by norm_num))]
        have hlowval : (k ^^^ (2 * bitsVal (b :: l) + Bool.toNat false)) % 2 = k % 2 := by
          rw [hxmod]
          rcases Nat.mod_two_eq_zero_or_one k with h | h <;>
            first
            | rw [if_pos (by simp [h])]
              omega
            | rw [if_neg (by simp [h])]
              omega
        by_cases hlo : j % 2 = k % 2
        · rw [if_pos hlo, if_pos (by omega)]
        · rw [if_neg hlo, if_neg (by omega)]
      · rw [show xg true = gateX from rfl, gateX_entry _ _ (Nat.mod_lt k (by norm_num))]
        have hlowval : (k ^^^ (2 * bitsVal (b :: l) + Bool.toNat true)) % 2 = 1 - k % 2 := by
          rw [hxmod]
          rcases Nat.mod_two_eq_zero_or_one k with h | h <;>
            first
            | rw [if_pos (by simp [h])]
              omega
            | rw [if_neg (by simp [h])]
              omega
        by_cases hlo : j % 2 = 1 - k % 2
        · rw [if_pos hlo, if_pos (by omega)]
        · rw [if_neg hlo, if_neg (by omega)]
    · rw [if_neg hhi, zero_mul, if_neg]
      intro hc
      apply hhi
      rw [hc, hxdiv]

/-- Row 0 of the Hadamard tensor power: every entry below `2 ^ n` equals
`invSqrt2 ^ n`. -/
theorem tpl_H_row0 (m : ℕ) :
    ∀ j < 2 ^ (m + 1), (tpl gateH (List.replicate m gateH)).entry 0 j = invSqrt2 ^ (m + 1) := by
  induction m with
  | zero =>
    intro j hj
    show gateH.entry 0 j = invSqrt2 ^ 1
    have hj2 : j = 0 ∨ j = 1 := by omega
    rcases hj2 with rfl | rfl
    · show (if (0:ℕ) = 1 ∧ (0:ℕ) = 1 then -invSqrt2 else if (0:ℕ) < 2 ∧ (0:ℕ) < 2 then invSqrt2 else 0) = _
      simp [pow_one]
    · show (if (0:ℕ) = 1 ∧ (1:ℕ) = 1 then -invSqrt2 else if (0:ℕ) < 2 ∧ (1:ℕ) < 2 then invSqrt2 else 0) = _
      simp [pow_one]
  | succ m ih =>
    intro j hj
    have hstep : (tpl gateH (List.replicate (m + 1) gateH)).entry 0 j
        = (tpl gateH (List.replicate m gateH)).entry 0 (j / 2) * gateH.entry 0 (j % 2) := by
      rw [show List.replicate (m + 1) gateH = List.replicate m gateH ++ [gateH] from
        (List.replicate_succ' m gateH)]
      show ((List.replicate m gateH ++ [gateH]).foldl kron gateH).entry 0 j = _
      rw [List.foldl_append]
      show ((List.replicate m gateH).foldl kron gateH).entry (0 / gateH.size) (j / gateH.size)
          * gateH.entry (0 % gateH.size) (j % gateH.size) = _
      rfl
    have hj2 : j / 2 < 2 ^ (m + 1) := by
      have hpow : 2 ^ (m + 1 + 1) = 2 ^ (m + 1) * 2 := pow_succ 2 _
      omega
    rw [hstep, ih (j / 2) hj2]
    have hH : gateH.entry 0 (j % 2) = invSqrt2 := by
      have : j % 2 < 2 := Nat.mod_lt j (by norm_num)
      show (if (0:ℕ) = 1 ∧ j % 2 = 1 then -invSqrt2
        else if (0:ℕ) < 2 ∧ j % 2 < 2 then invSqrt2 else 0) = _
      simp [this]
    rw [hH, ← pow_succ]

/-! ### The controlled-gate row-swap loop of `cx` / `ccx` -/

/-- Simultaneous swap of two rows, mirroring the Python tuple assignment
`identity[i], identity[swap_idx] = identity[swap_idx].copy(), identity[i].copy()`. -/
def swapRows (A : Mat) (r1 r2 : ℕ) : Mat :=
  ⟨A.size, fun i j => if i = r1 then A.entry r2 j else if i = r2 then A.entry r1 j else A.entry i j⟩

/-- The `for i in range(self._state.size)` loop shared by `cx` and `ccx`:
whenever the control condition `Q i` holds (which includes `not i & t_mask`),
rows `i` and `i | t_mask` are swapped. -/
def mcxLoop (N : ℕ) (Q : ℕ → Bool) (tmask : ℕ) (M : Mat) : Mat :=
  (List.range N).foldl (fun A i => if Q i = true then swapRows A i (i ||| tmask) else A) M

/-- Where row `k` of the loop result points after processing loop indices
`[0, m)`. -/
def piFun (Q : ℕ → Bool) (bt m k : ℕ) : ℕ :=
  if Q k = true ∧ k < m then k ||| 2 ^ bt
  else if k.testBit bt = true ∧ Q (k ^^^ 2 ^ bt) = true ∧ k ^^^ 2 ^ bt < m then k ^^^ 2 ^ bt
  else k

theorem piFun_succ (Q : ℕ → Bool) (bt m k : ℕ)
    (h1 : ¬ (Q k = true ∧ k = m))
    (h2 : ¬ (k.testBit bt = true ∧ Q (k ^^^ 2 ^ bt) = true ∧ k ^^^ 2 ^ bt = m)) :
    piFun Q bt (m + 1) k = piFun Q bt m k := by
  unfold piFun
  by_cases c1 : Q k = true ∧ k < m
  · rw [if_pos ⟨c1.1, by omega⟩, if_pos c1]
  · have c1' : ¬ (Q k = true ∧ k < m + 1) := by
      rintro ⟨hq, hlt⟩
      rcases Nat.lt_succ_iff_lt_or_eq.mp hlt with h | h
      · exact c1 ⟨hq, h⟩
      · exact h1 ⟨hq, h⟩
    rw [if_neg c1', if_neg c1]
    by_cases c2 : k.testBit bt = true ∧ Q (k ^^^ 2 ^ bt) = true ∧ k ^^^ 2 ^ bt < m
    · rw [if_pos ⟨c2.1, c2.2.1, by omega⟩, if_pos c2]
    · have c2' : ¬ (k.testBit bt = true ∧ Q (k ^^^ 2 ^ bt) = true ∧ k ^^^ 2 ^ bt < m + 1) := by
        rintro ⟨ha, hb', hlt⟩
        rcases Nat.lt_succ_iff_lt_or_eq.mp hlt with h | h
        · exact c2 ⟨ha, hb', h⟩
        · exact h2 ⟨ha, hb', h⟩
      rw [if_neg c2', if_neg c2]

theorem mcxLoop_partial_rows (n bt : ℕ) (hb : bt < n) (Q : ℕ → Bool)
    (hQ : ∀ i, Q i = true → i.testBit bt = false) (M : Mat)
    (hM : ∀ k < 2 ^ n, ∀ j, M.entry k j = if j = k then 1 else 0) :
    ∀ m, m ≤ 2 ^ n → ∀ k, k < 2 ^ n → ∀ j,
      ((List.range m).foldl
          (fun A i => if Q i = true then swapRows A i (i ||| 2 ^ bt) else A) M).entry k j
        = if j = piFun Q bt m k then 1 else 0 := by
  intro m
  induction m with
  | zero =>
    intro _ k hk j
    have hpi : piFun Q bt 0 k = k := by
      unfold piFun
      rw [if_neg (by rintro ⟨_, h⟩; omega), if_neg (by rintro ⟨_, _, h⟩; omega)]
    rw [hpi]
    exact hM k hk j
  | succ m ih =>
    intro hm1 k hk j
    have hm : m ≤ 2 ^ n := by omega
    have hmlt : m < 2 ^ n := by omega
    have hpowlt : 2 ^ bt < 2 ^ n := Nat.pow_lt_pow_right (by norm_num) hb
    rw [List.range_succ, List.foldl_append, List.foldl_cons, List.foldl_nil]
    by_cases hQm : Q m = true
    · rw [if_pos hQm]
      have hmb : m.testBit bt = false := hQ m hQm
      have hoa := or_xor_add_two_pow m bt hmb
      have hne : m ≠ m ||| 2 ^ bt := by
        have hp : 0 < 2 ^ bt := Nat.pos_pow_of_pos bt (by norm_num)
        omega
      have hor_xor : m ||| 2 ^ bt = m ^^^ 2 ^ bt := by omega
      have hm2lt : m ||| 2 ^ bt < 2 ^ n := by
        rw [hor_xor]
        exact Nat.xor_lt_two_pow hmlt hpowlt
      have hswapbit : (m ||| 2 ^ bt).testBit bt = true := by
        rw [Nat.testBit_lor, Nat.testBit_two_pow_self]
        simp
      have hQm2 : ¬ (Q (m ||| 2 ^ bt) = true) := by
        intro hc
        rw [hQ _ hc] at hswapbit
        exact Bool.false_ne_true hswapbit
      have hcancel : (m ||| 2 ^ bt) ^^^ 2 ^ bt = m := by
        rw [hor_xor, Nat.xor_cancel_right]
      show (swapRows _ m (m ||| 2 ^ bt)).entry k j = _
      by_cases hkm : k = m
      · show (if k = m then _ else _) = _
        rw [if_pos hkm, ih hm (m ||| 2 ^ bt) hm2lt j]
        have hpi1 : piFun Q bt m (m ||| 2 ^ bt) = m ||| 2 ^ bt := by
          unfold piFun
          rw [if_neg (by rintro ⟨hq, _⟩; exact hQm2 hq),
            if_neg (by rintro ⟨_, _, hlt⟩; rw [hcancel] at hlt; omega)]
        have hpi2 : piFun Q bt (m + 1) k = m ||| 2 ^ bt := by
          unfold piFun
          rw [hkm, if_pos ⟨hQm, by omega⟩]
        rw [hpi1, hpi2]
      · by_cases hkm2 : k = m ||| 2 ^ bt
        · show (if k = m then _ else if k = m ||| 2 ^ bt then _ else _) = _
          rw [if_neg hkm, if_pos hkm2, ih hm m hmlt j]
          have hpi1 : piFun Q bt m m = m := by
            unfold piFun
            rw [if_neg (by rintro ⟨_, hlt⟩; omega),
              if_neg (by rintro ⟨hbt, _, _⟩; rw [hmb] at hbt; exact Bool.false_ne_true hbt)]
          have hpi2 : piFun Q bt (m + 1) k = m := by
            unfold piFun
            rw [if_neg (by rintro ⟨hq, _⟩; rw [hkm2] at hq; exact hQm2 hq)]
            rw [if_pos ?side]
            case side =>
              refine ⟨by rw [hkm2]; exact hswapbit, ?_, ?_⟩
              · rw [hkm2, hcancel]; exact hQm
              · rw [hkm2, hcancel]; omega
            rw [hkm2, hcancel]
          rw [hpi1, hpi2]
        · show (if k = m then _ else if k = m ||| 2 ^ bt then _ else _) = _
          rw [if_neg hkm, if_neg hkm2, ih hm k hk j]
          rw [piFun_succ Q bt m k (by rintro ⟨_, h⟩; exact hkm h)
            (by
              rintro ⟨hbt, _, hxe⟩
              apply hkm2
              have : k = m ^^^ 2 ^ bt := by
                rw [← hxe, Nat.xor_cancel_right]
              rw [this, hor_xor])]
    · rw [if_neg hQm]
      rw [ih hm k hk j]
      rw [piFun_succ Q bt m k (by rintro ⟨hq, he⟩; rw [he] at hq; exact hQm hq)
        (by rintro ⟨_, hq, he⟩; rw [he] at hq; exact hQm hq)]

theorem mcxLoop_rows (n bt : ℕ) (hb : bt < n) (Q : ℕ → Bool)
    (hQ : ∀ i, Q i = true → i.testBit bt = false) (M : Mat)
    (hM : ∀ k < 2 ^ n, ∀ j, M.entry k j = if j = k then 1 else 0) :
    ∀ k, k < 2 ^ n → ∀ j,
      (mcxLoop (2 ^ n) Q (2 ^ bt) M).entry k j
        = if j = (if Q k = true then k ^^^ 2 ^ bt
            else if k.testBit bt = true ∧ Q (k ^^^ 2 ^ bt) = true then k ^^^ 2 ^ bt else k)
          then 1 else 0 := by
  intro k hk j
  have h := mcxLoop_partial_rows n bt hb Q hQ M hM (2 ^ n) (le_refl _) k hk j
  rw [show mcxLoop (2 ^ n) Q (2 ^ bt) M
      = (List.range (2 ^ n)).foldl
        (fun A i => if Q i = true then swapRows A i (i ||| 2 ^ bt) else A) M from rfl, h]
  congr 1
  unfold piFun
  have hpowlt : 2 ^ bt < 2 ^ n := Nat.pow_lt_pow_right (by norm_num) hb
  by_cases c1 : Q k = true
  · have hkb : k.testBit bt = false := hQ k c1
    rw [if_pos ⟨c1, hk⟩, if_pos c1]
    obtain ⟨ho1, ho2⟩ := or_xor_add_two_pow k bt hkb
    rw [ho1, ho2]
  · rw [if_neg (by rintro ⟨hq, _⟩; exact c1 hq), if_neg c1]
    by_cases c2 : k.testBit bt = true ∧ Q (k ^^^ 2 ^ bt) = true
    · rw [if_pos ⟨c2.1, c2.2, Nat.xor_lt_two_pow hk hpowlt⟩, if_pos c2]
    · rw [if_neg (by rintro ⟨ha, hb', _⟩; exact c2 ⟨ha, hb'⟩), if_neg c2]

/-! ### The circuit engine (`QCLCircuit`) -/

/-- The cached identity `self._identity = self.tp([Gate.I] * n)` (recomputed
by the `n` setter, hence always the tensor power of `n` identity gates). -/
def identityTP (n : ℕ) : Mat := tpl gateI (List.replicate (n - 1) gateI)

theorem identityTP_size (n : ℕ) (hn : 0 < n) : (identityTP n).size = 2 ^ n := by
  unfold identityTP
  rw [tpl_size _ _ rfl (fun m hm => by rw [List.eq_of_mem_replicate hm]; rfl),
    List.length_replicate]
  congr 1
  omega

theorem bitsVal_replicate_false : ∀ m, bitsVal (List.replicate m false) = 0 := by
  have key : ∀ (l : List Bool) (a : ℕ), (∀ x ∈ l, x = false) →
      l.foldl (fun acc bb => 2 * acc + bb.toNat) a = a * 2 ^ l.length := by
    intro l
    induction l with
    | nil => intro a _; simp
    | cons x xs ih =>
      intro a hx
      have hx0 : x = false := hx x (List.mem_cons_self x xs)
      rw [List.foldl_cons, hx0]
      show xs.foldl _ (2 * a + 0) = _
      rw [ih (2 * a + 0) (fun y hy => hx y (List.mem_cons_of_mem x hy))]
      simp [List.length_cons, pow_succ]
      ring
  intro m
  have := key (List.replicate m false) 0 (fun x hx => List.eq_of_mem_replicate hx)
  simpa [bitsVal] using this

theorem identityTP_row (n : ℕ) (hn : 0 < n) :
    ∀ k < 2 ^ n, ∀ j, (identityTP n).entry k j = if j = k then 1 else 0 := by
  intro k hk j
  have hmap : List.replicate (n - 1) gateI = (List.replicate (n - 1) false).map xg := by
    rw [List.map_replicate]
    rfl
  have hlen : (List.replicate (n - 1) false).length + 1 = n := by
    rw [List.length_replicate]
    omega
  have hrow := tpl_xg_row false (List.replicate (n - 1) false) k (by rw [hlen]; exact hk) j
  have hbv : bitsVal (false :: List.replicate (n - 1) false) = 0 := by
    have : (false :: List.replicate (n - 1) false) = List.replicate (n - 1 + 1) false := rfl
    rw [this, bitsVal_replicate_false]
  rw [hbv, Nat.xor_zero] at hrow
  unfold identityTP
  rw [hmap]
  exact hrow

/-- Operator built by `QCLCircuit.cx(c, t)`: a copy of the cached identity
with rows `i` and `i | t_mask` swapped whenever `i & c_mask` is truthy and
`i & t_mask` is zero.  A negative shift count (control or target `>= n`)
raises `ValueError`, computed in source order (`c_mask` before `t_mask`).
The loop runs over `range(self._state.size)` and the state vector always has
`2 ^ n` entries. -/
def cxOperator (n : ℕ) (c t : ℤ) : Except String Mat :=
  if (n : ℤ) - c - 1 < 0 then .error "ValueError: negative shift count"
  else
    let cMask := 1 <<< ((n : ℤ) - c - 1).toNat
    if (n : ℤ) - t - 1 < 0 then .error "ValueError: negative shift count"
    else
      let tMask := 1 <<< ((n : ℤ) - t - 1).toNat
      .ok (mcxLoop (2 ^ n) (fun i => decide (¬ i &&& cMask = 0 ∧ i &&& tMask = 0))
        tMask (identityTP n))

/-- Operator built by `QCLCircuit.ccx(c1, c2, t)`; as `cxOperator` but the
swap requires both control bits to be set. -/
def ccxOperator (n : ℕ) (c1 c2 t : ℤ) : Except String Mat :=
  if (n : ℤ) - c1 - 1 < 0 then .error "ValueError: negative shift count"
  else
    let c1Mask := 1 <<< ((n : ℤ) - c1 - 1).toNat
    if (n : ℤ) - c2 - 1 < 0 then .error "ValueError: negative shift count"
    else
      let c2Mask := 1 <<< ((n : ℤ) - c2 - 1).toNat
      if (n : ℤ) - t - 1 < 0 then .error "ValueError: negative shift count"
      else
        let tMask := 1 <<< ((n : ℤ) - t - 1).toNat
        .ok (mcxLoop (2 ^ n)
          (fun i => decide (¬ i &&& c1Mask = 0 ∧ ¬ i &&& c2Mask = 0 ∧ i &&& tMask = 0))
          tMask (identityTP n))

/-- Python list-assignment index resolution for `expanded_gate[position]`:
indices in `[-n, n)` are valid, negative ones count from the end; anything
else raises `IndexError`. -/
def listAssignIdx (n : ℕ) (p : ℤ) : Option ℕ :=
  if 0 ≤ p then (if p < (n : ℤ) then some p.toNat else none)
  else (if -p ≤ (n : ℤ) then some (n - (-p).toNat) else none)

/-- One iteration of the assignment loop of `expand_gate`:
`expanded_gate[position] = single_gate`. -/
def assignStep (n : ℕ) (single_gate : Mat) (lst : List Mat) (p : ℤ) :
    Except String (List Mat) :=
  match listAssignIdx n p with
  | some k => Except.ok (lst.set k single_gate)
  | none => Except.error "IndexError: list assignment index out of range"

/-- `QCLCircuit.expand_gate(single_gate, positions)`: start from `[I] * n`,
assign `single_gate` at every listed position (Python list indexing), then
tensor the list together.  An `int` argument is wrapped into a one-element
list by the source, so the embedding takes the list form. -/
def expand_gate (n : ℕ) (single_gate : Mat) (positions : List ℤ) : Except String Mat := do
  let assigned ← positions.foldlM (assignStep n single_gate) (List.replicate n gateI)
  tp assigned

/-- The mutable fields of a `QCLCircuit`: qubit count `n`, initial state
vector `_state` (defined on `[0, 2^n)`), the ordered operator list `gates`,
and the `_result` cache (`none` until a `run`). -/
structure Circuit where
  n : ℕ
  state : ℕ → RQ2
  gates : List Mat
  result : Option (ℕ → RQ2)

/-- The `result` property: the last simulation result, or the initial state
if no simulation has been run yet. -/
def Circuit.resultVec (c : Circuit) : ℕ → RQ2 := c.result.getD c.state

/-- Row-vector times matrix, i.e. `np.matmul(result, gate)` for a 1-D left
operand: contraction over the gate's row index. -/
def vecMatMul (v : ℕ → RQ2) (M : Mat) : ℕ → RQ2 :=
  fun j => ∑ i ∈ Finset.range M.size, v i * M.entry i j

/-- `QCLCircuit.run`: folds the initial state through every gate in order,
stores the result and returns `self.result`. -/
def Circuit.run (c : Circuit) : (ℕ → RQ2) × Circuit :=
  let result := c.gates.foldl vecMatMul c.state
  let c' := { c with result := some result }
  (c'.resultVec, c')

/-- `QCLCircuit.x(i)`: appends the expanded X gate. -/
def Circuit.x (c : Circuit) (positions : List ℤ) : Except String Circuit := do
  let g ← expand_gate c.n gateX positions
  Except.ok { c with gates := c.gates ++ [g] }

/-- `QCLCircuit.h(i)`: appends the expanded H gate. -/
def Circuit.h (c : Circuit) (positions : List ℤ) : Except String Circuit := do
  let g ← expand_gate c.n gateH positions
  Except.ok { c with gates := c.gates ++ [g] }

/-- `QCLCircuit.cx(c, t)`: appends the controlled-X operator. -/
def Circuit.cx (c : Circuit) (ctrl t : ℤ) : Except String Circuit := do
  let g ← cxOperator c.n ctrl t
  Except.ok { c with gates := c.gates ++ [g] }

/-- `QCLCircuit.ccx(c1, c2, t)`: appends the doubly-controlled-X operator. -/
def Circuit.ccx (c : Circuit) (c1 c2 t : ℤ) : Except String Circuit := do
  let g ← ccxOperator c.n c1 c2 t
  Except.ok { c with gates := c.gates ++ [g] }

/-- Validation `re.match(r"^[01]+$", state)` of a binary string. -/
def matches01 (s : String) : Bool := s.length ≠ 0 && s.data.all (fun ch => ch = '0' || ch = '1')

/-- `int(state, 2)` on a validated binary string. -/
def bitstring_val (s : String) : ℕ :=
  s.data.foldl (fun acc ch => 2 * acc + (if ch = '1' then 1 else 0)) 0

/-- The string branch of `QCLCircuit._initialize_state`, entered from the
constructor on a fresh object: validates the binary string, sets
`n = len(state)` and puts amplitude 1 on the encoded basis index. -/
def QCLCircuit_ofString (s : String) : Except String Circuit :=
  if matches01 s = false then .error "BinaryStringError"
  else .ok { n := s.length, state := eBasis (bitstring_val s), gates := [], result := none }

/-- The int branch of `QCLCircuit._initialize_state`, entered from the
constructor on a fresh object: rejects non-positive qubit counts and starts
in the all-zero basis state. -/
def QCLCircuit_ofNat (state : ℤ) : Except String Circuit :=
  if state ≤ 0 then .error "PositiveValueError"
  else .ok { n := state.toNat, state := eBasis 0, gates := [], result := none }

/-- Modelled from the spec: `QCLCircuit.initialize_circuit`, the public reset
method called by `HalfAdderCircuit` but not present under `src/` (the source
only contains the identical `_initialize_circuit`).  Per the spec it "builds
a circuit that outputs the provided state starting from the all-zero state":
it validates the `^[01h]+$` pattern and the length, resets the gate list,
result and state, then applies `x` at the positions of the `'1'` characters
and `h` at the positions of the `'h'` characters. -/
def initialize_circuit (c : Circuit) (state : String) : Except String Circuit :=
  if (state.length != 0 && state.data.all (fun ch => ch == '0' || ch == '1' || ch == 'h'))
      = false then
    .error "ValueError: state must be a string that verifies the regex"
  else if state.length ≠ c.n then
    .error "ValueError: state must be a string of length n"
  else
    let c1 : Circuit := { c with gates := [], result := none, state := eBasis 0 }
    let x_list := ((state.data.enum.filter (fun p => p.2 == '1')).map (fun p => (p.1 : ℤ)))
    let h_list := ((state.data.enum.filter (fun p => p.2 == 'h')).map (fun p => (p.1 : ℤ)))
    do
      let c2 ← c1.x x_list
      c2.h h_list

/-- The digit string `f"{a}"` for a validated one-bit input. -/
def bitChar (a : ℤ) : String := if a = 0 then "0" else "1"

/-- `HalfAdderCircuit(a, b)`: validates the bit inputs, initialises the
4-qubit register to `ab00`, then applies `cx(0,3)`, `cx(1,3)` (sum) and
`ccx(0,1,2)` (carry). -/
def HalfAdderCircuit (a b : ℤ) : Except String Circuit :=
  if ¬ (a = 0 ∨ a = 1) ∨ ¬ (b = 0 ∨ b = 1) then .error "BitValueError"
  else do
    let c0 ← QCLCircuit_ofNat 4
    let c1 ← initialize_circuit c0 (bitChar a ++ bitChar b ++ "00")
    let c2 ← c1.cx 0 3
    let c3 ← c2.cx 1 3
    let c4 ← c3.ccx 0 1 2
    Except.ok c4

/-- `HalfAdderCircuit.sum()`: runs the circuit, locates the first index with
amplitude exactly 1 (`np.where(self.result == 1)[0][0]`, `IndexError` when
there is none) and reads the last two of its four binary digits
(`f"{sum_state:04b}"[2:]`), i.e. the value modulo 4. -/
def HalfAdder_sum (a b : ℤ) : Except String ℕ := do
  let c ← HalfAdderCircuit a b
  let res := (Circuit.run c).1
  match (List.range (2 ^ 4)).find? (fun i => res i == 1) with
  | none => Except.error "IndexError: index 0 is out of bounds"
  | some sum_state => Except.ok (sum_state % 4)

/-- Python `int.bit_length`. -/
def bit_length (x : ℕ) : ℕ := if x = 0 then 0 else Nat.log2 x + 1

/-- `extract_bits(number, idx)` for a list argument: every selected bit is
read at offset `n - i - 1` where `n` is `number.bit_length()`; a negative
shift count raises `ValueError`.  Bits are packed big-endian via
`bits = (bits << 1) | bit`. -/
def extract_bits (number : ℕ) (idx : List ℕ) : Except String ℕ :=
  let n := bit_length number
  idx.foldlM
    (fun (bits : ℕ) (i : ℕ) =>
      if (n : ℤ) - i - 1 < 0 then Except.error "ValueError: negative shift count"
      else Except.ok ((bits <<< 1) ||| ((number >>> (n - i - 1)) &&& 1)))
    0

/-- Insertion-ordered dictionary update `msr[idx] += prb` / `msr[idx] = prb`. -/
def dictAdd (msr : List (ℕ × RQ2)) (idx : ℕ) (prb : RQ2) : List (ℕ × RQ2) :=
  if msr.any (fun pr => pr.1 == idx) then
    msr.map (fun pr => if pr.1 == idx then (pr.1, pr.2 + prb) else pr)
  else msr ++ [(idx, prb)]

/-- `QCLCircuit.counts(auto_run, msr_list)`, modelled as the list of printed
`(index, value)` lines.  Full-register branch: indices with `digit > 0`
paired with `np.square(digit) * 100`.  Sub-register branch: squared
amplitudes accumulated under the `extract_bits` key, keys with `prb > 0`
paired with the raw probability (the source does not multiply by 100 here). -/
def Circuit.counts (c : Circuit) (auto_run : Bool) (msr_list : Option (List ℕ)) :
    Except String (List (ℕ × RQ2)) :=
  let c := if auto_run then (Circuit.run c).2 else c
  let res := c.resultVec
  match msr_list with
  | none =>
    .ok ((List.range (2 ^ c.n)).filterMap
      (fun i => if (res i).pos then some (i, res i * res i * 100) else none))
  | some l =>
    if l.length = 0 then
      .ok ((List.range (2 ^ c.n)).filterMap
        (fun i => if (res i).pos then some (i, res i * res i * 100) else none))
    else do
      let msr ← (List.range (2 ^ c.n)).foldlM
        (fun (acc : List (ℕ × RQ2)) i => do
          let idx ← extract_bits i l
          Except.ok (dictAdd acc idx (res i * res i)))
        ([] : List (ℕ × RQ2))
      Except.ok (msr.filter (fun pr => pr.2.pos))

/-! ### Evaluation helpers: basis vectors through the gates -/

theorem vecMatMul_eBasis (k : ℕ) (M : Mat) (hk : k < M.size) :
    vecMatMul (eBasis k) M = fun j => M.entry k j := by
  funext j
  unfold vecMatMul eBasis
  rw [Finset.sum_eq_single k]
  · rw [if_pos rfl, one_mul]
  · intro b _ hb
    rw [if_neg hb, zero_mul]
  · intro hnk
    exact absurd (Finset.mem_range.mpr hk) hnk

theorem row_eq_eBasis (M : Mat) (k v : ℕ)
    (h : ∀ j, M.entry k j = if j = v then 1 else 0) :
    (fun j => M.entry k j) = eBasis v := by
  funext j
  rw [h j]
  rfl

theorem mcxLoop_size (N : ℕ) (Q : ℕ → Bool) (t : ℕ) (M : Mat) :
    (mcxLoop N Q t M).size = M.size := by
  unfold mcxLoop
  generalize List.range N = l
  induction l generalizing M with
  | nil => rfl
  | cons x xs ih =>
    rw [List.foldl_cons]
    by_cases h : Q x = true
    · rw [if_pos h]
      exact ih (swapRows M x (x ||| t))
    · rw [if_neg h]
      exact ih M

theorem bool_eq_false_of_not_true {b : Bool} (h : ¬ b = true) : b = false := by
  rw [← Bool.not_eq_true]
  exact h

theorem cxOperator_ok (n c t : ℕ) (hn : 0 < n) (hc : c < n) (ht : t < n) (hct : c ≠ t) :
    ∃ M, cxOperator n (c : ℤ) (t : ℤ) = .ok M ∧ M.size = 2 ^ n ∧
      ∀ i, i < 2 ^ n → ∀ j, M.entry i j
        = if j = (if i.testBit (n - c - 1) = true then i ^^^ 2 ^ (n - t - 1) else i)
          then 1 else 0 := by
  have hsc : ¬ ((n:ℤ) - c - 1 < 0) := by omega
  have hst : ¬ ((n:ℤ) - t - 1 < 0) := by omega
  have hmc : (1 <<< ((n:ℤ) - c - 1).toNat) = 2 ^ (n - c - 1) := by
    rw [show ((n:ℤ) - c - 1).toNat = n - c - 1 by omega, Nat.one_shiftLeft]
  have hmt : (1 <<< ((n:ℤ) - t - 1).toNat) = 2 ^ (n - t - 1) := by
    rw [show ((n:ℤ) - t - 1).toNat = n - t - 1 by omega, Nat.one_shiftLeft]
  have hbcbt : n - c - 1 ≠ n - t - 1 := by omega
  have hbt : n - t - 1 < n := by omega
  unfold cxOperator
  rw [if_neg hsc]
  dsimp only
  rw [if_neg hst]
  simp only [hmc, hmt]
  refine ⟨_, rfl, ?_, ?_⟩
  · rw [mcxLoop_size, identityTP_size n hn]
  · have hQ : ∀ i, (decide (¬ i &&& 2 ^ (n - c - 1) = 0 ∧ i &&& 2 ^ (n - t - 1) = 0)) = true
        → i.testBit (n - t - 1) = false := by
      intro i hi
      rw [decide_eq_true_eq] at hi
      exact (and_two_pow_eq_zero_iff i (n - t - 1)).mp hi.2
    intro i hi j
    rw [mcxLoop_rows n (n - t - 1) hbt _ hQ (identityTP n) (identityTP_row n hn) i hi j]
    congr 1
    have hflip : (i ^^^ 2 ^ (n - t - 1)).testBit (n - c - 1) = i.testBit (n - c - 1) := by
      rw [Nat.testBit_xor, Nat.testBit_two_pow,
        decide_eq_false (fun h : n - t - 1 = n - c - 1 => hbcbt h.symm)]
      simp
    have hflipt : (i ^^^ 2 ^ (n - t - 1)).testBit (n - t - 1) = !(i.testBit (n - t - 1)) := by
      rw [Nat.testBit_xor, Nat.testBit_two_pow_self]
      cases i.testBit (n - t - 1) <;> rfl
    by_cases hc1 : i.testBit (n - c - 1) = true
    · by_cases hc2 : i.testBit (n - t - 1) = true
      · rw [if_neg, if_pos, if_pos hc1]
        · refine ⟨hc2, ?_⟩
          rw [decide_eq_true_eq]
          refine ⟨?_, ?_⟩
          · rw [and_two_pow_ne_zero_iff, hflip]
            exact hc1
          · rw [and_two_pow_eq_zero_iff, hflipt, hc2]
            rfl
        · rw [decide_eq_true_eq]
          rintro ⟨_, hz⟩
          rw [and_two_pow_eq_zero_iff] at hz
          exact Bool.noConfusion (hc2.symm.trans hz)
      · rw [if_pos, if_pos hc1]
        rw [decide_eq_true_eq]
        refine ⟨?_, ?_⟩
        · rw [and_two_pow_ne_zero_iff]
          exact hc1
        · rw [and_two_pow_eq_zero_iff]
          exact bool_eq_false_of_not_true hc2
    · have hcf : i.testBit (n - c - 1) = false := bool_eq_false_of_not_true hc1
      rw [if_neg, if_neg, if_neg hc1]
      · rintro ⟨_, hq⟩
        rw [decide_eq_true_eq] at hq
        obtain ⟨hq1, _⟩ := hq
        rw [and_two_pow_ne_zero_iff, hflip] at hq1
        exact Bool.noConfusion (hcf.symm.trans hq1)
      · rw [decide_eq_true_eq]
        rintro ⟨hq1, _⟩
        rw [and_two_pow_ne_zero_iff] at hq1
        exact Bool.noConfusion (hcf.symm.trans hq1)

theorem ccxOperator_ok (n c1 c2 t : ℕ) (hn : 0 < n) (hc1 : c1 < n) (hc2 : c2 < n)
    (ht : t < n) (htc1 : t ≠ c1) (htc2 : t ≠ c2) :
    ∃ M, ccxOperator n (c1 : ℤ) (c2 : ℤ) (t : ℤ) = .ok M ∧ M.size = 2 ^ n ∧
      ∀ i, i < 2 ^ n → ∀ j, M.entry i j
        = if j = (if i.testBit (n - c1 - 1) = true ∧ i.testBit (n - c2 - 1) = true
              then i ^^^ 2 ^ (n - t - 1) else i)
          then 1 else 0 := by
  have hs1 : ¬ ((n:ℤ) - c1 - 1 < 0) := by omega
  have hs2 : ¬ ((n:ℤ) - c2 - 1 < 0) := by omega
  have hst : ¬ ((n:ℤ) - t - 1 < 0) := by omega
  have hm1 : (1 <<< ((n:ℤ) - c1 - 1).toNat) = 2 ^ (n - c1 - 1) := by
    rw [show ((n:ℤ) - c1 - 1).toNat = n - c1 - 1 by omega, Nat.one_shiftLeft]
  have hm2 : (1 <<< ((n:ℤ) - c2 - 1).toNat) = 2 ^ (n - c2 - 1) := by
    rw [show ((n:ℤ) - c2 - 1).toNat = n - c2 - 1 by omega, Nat.one_shiftLeft]
  have hmt : (1 <<< ((n:ℤ) - t - 1).toNat) = 2 ^ (n - t - 1) := by
    rw [show ((n:ℤ) - t - 1).toNat = n - t - 1 by omega, Nat.one_shiftLeft]
  have hb1 : n - c1 - 1 ≠ n - t - 1 := by omega
  have hb2 : n - c2 - 1 ≠ n - t - 1 := by omega
  have hbt : n - t - 1 < n := by omega
  unfold ccxOperator
  rw [if_neg hs1]
  dsimp only
  rw [if_neg hs2]
  rw [if_neg hst]
  simp only [hm1, hm2, hmt]
  refine ⟨_, rfl, ?_, ?_⟩
  · rw [mcxLoop_size, identityTP_size n hn]
  · have hQ : ∀ i, (decide (¬ i &&& 2 ^ (n - c1 - 1) = 0 ∧ ¬ i &&& 2 ^ (n - c2 - 1) = 0
        ∧ i &&& 2 ^ (n - t - 1) = 0)) = true → i.testBit (n - t - 1) = false := by
      intro i hi
      rw [decide_eq_true_eq] at hi
      exact (and_two_pow_eq_zero_iff i (n - t - 1)).mp hi.2.2
    intro i hi j
    rw [mcxLoop_rows n (n - t - 1) hbt _ hQ (identityTP n) (identityTP_row n hn) i hi j]
    congr 1
    have hfc1 : (i ^^^ 2 ^ (n - t - 1)).testBit (n - c1 - 1) = i.testBit (n - c1 - 1) := by
      rw [Nat.testBit_xor, Nat.testBit_two_pow,
        decide_eq_false (fun h : n - t - 1 = n - c1 - 1 => hb1 h.symm)]
      simp
    have hfc2 : (i ^^^ 2 ^ (n - t - 1)).testBit (n - c2 - 1) = i.testBit (n - c2 - 1) := by
      rw [Nat.testBit_xor, Nat.testBit_two_pow,
        decide_eq_false (fun h : n - t - 1 = n - c2 - 1 => hb2 h.symm)]
      simp
    have hflipt : (i ^^^ 2 ^ (n - t - 1)).testBit (n - t - 1) = !(i.testBit (n - t - 1)) := by
      rw [Nat.testBit_xor, Nat.testBit_two_pow_self]
      cases i.testBit (n - t - 1) <;> rfl
    by_cases hcc : i.testBit (n - c1 - 1) = true ∧ i.testBit (n - c2 - 1) = true
    · by_cases hct : i.testBit (n - t - 1) = true
      · rw [if_neg, if_pos, if_pos hcc]
        · refine ⟨hct, ?_⟩
          rw [decide_eq_true_eq]
          refine ⟨?_, ?_, ?_⟩
          · rw [and_two_pow_ne_zero_iff, hfc1]
            exact hcc.1
          · rw [and_two_pow_ne_zero_iff, hfc2]
            exact hcc.2
          · rw [and_two_pow_eq_zero_iff, hflipt, hct]
            rfl
        · rw [decide_eq_true_eq]
          rintro ⟨_, _, hz⟩
          rw [and_two_pow_eq_zero_iff] at hz
          exact Bool.noConfusion (hct.symm.trans hz)
      · rw [if_pos, if_pos hcc]
        rw [decide_eq_true_eq]
        refine ⟨?_, ?_, ?_⟩
        · rw [and_two_pow_ne_zero_iff]
          exact hcc.1
        · rw [and_two_pow_ne_zero_iff]
          exact hcc.2
        · rw [and_two_pow_eq_zero_iff]
          exact bool_eq_false_of_not_true hct
    · rw [if_neg, if_neg, if_neg hcc]
      · rintro ⟨_, hq⟩
        rw [decide_eq_true_eq] at hq
        obtain ⟨hq1, hq2, _⟩ := hq
        rw [and_two_pow_ne_zero_iff, hfc1] at hq1
        rw [and_two_pow_ne_zero_iff, hfc2] at hq2
        exact hcc ⟨hq1, hq2⟩
      · rw [decide_eq_true_eq]
        rintro ⟨hq1, hq2, _⟩
        rw [and_two_pow_ne_zero_iff] at hq1
        rw [and_two_pow_ne_zero_iff] at hq2
        exact hcc ⟨hq1, hq2⟩

theorem foldlM_assign_ok (n : ℕ) (g : Mat) :
    ∀ (ps : List ℤ), (∀ p ∈ ps, 0 ≤ p ∧ p < (n : ℤ)) →
    ∀ init : List Mat,
      ps.foldlM (assignStep n g) init
        = Except.ok (ps.foldl (fun lst p => lst.set p.toNat g) init) := by
  intro ps
  induction ps with
  | nil =>
    intro _ init
    rfl
  | cons p ps ih =>
    intro hps init
    have hp := hps p (List.mem_cons_self p ps)
    have hidx : listAssignIdx n p = some p.toNat := by
      unfold listAssignIdx
      rw [if_pos hp.1, if_pos hp.2]
    rw [List.foldlM_cons]
    show (assignStep n g init p) >>= _ = _
    rw [show assignStep n g init p = Except.ok (init.set p.toNat g) by
      unfold assignStep
      rw [hidx]]
    show ps.foldlM (assignStep n g) (init.set p.toNat g) = _
    rw [ih (fun q hq => hps q (List.mem_cons_of_mem p hq)) (init.set p.toNat g)]
    rfl

theorem foldlM_assign_err (n : ℕ) (g : Mat) :
    ∀ (ps : List ℤ), (∃ p ∈ ps, (n : ℤ) ≤ p) →
    ∀ init : List Mat,
      ∃ e, ps.foldlM (assignStep n g) init = Except.error e := by
  intro ps
  induction ps with
  | nil =>
    rintro ⟨p, hp, _⟩
    exact absurd hp (List.not_mem_nil p)
  | cons p ps ih =>
    rintro ⟨q, hq, hqn⟩ init
    rw [List.foldlM_cons]
    cases hidx : listAssignIdx n p with
    | none =>
      refine ⟨"IndexError: list assignment index out of range", ?_⟩
      show (assignStep n g init p) >>= _ = _
      rw [show assignStep n g init p
          = Except.error "IndexError: list assignment index out of range" by
        unfold assignStep
        rw [hidx]]
      rfl
    | some k =>
      rcases List.mem_cons.mp hq with rfl | hq'
      · exfalso
        unfold listAssignIdx at hidx
        rw [if_pos (by omega), if_neg (by omega)] at hidx
        exact Option.noConfusion hidx
      · obtain ⟨e, he⟩ := ih ⟨q, hq', hqn⟩ (init.set k g)
        refine ⟨e, ?_⟩
        show (assignStep n g init p) >>= _ = _
        rw [show assignStep n g init p = Except.ok (init.set k g) by
          unfold assignStep
          rw [hidx]]
        exact he

theorem foldl_set_length (g : Mat) :
    ∀ (ps : List ℕ) (init : List Mat),
      (ps.foldl (fun lst p => lst.set p g) init).length = init.length := by
  intro ps
  induction ps with
  | nil => intro init; rfl
  | cons p ps ih =>
    intro init
    rw [List.foldl_cons, ih, List.length_set]

theorem foldl_set_get (g : Mat) :
    ∀ (ps : List ℕ) (init : List Mat), (∀ p ∈ ps, p < init.length) →
      ∀ k, (ps.foldl (fun lst p => lst.set p g) init).get? k
        = if k ∈ ps then (if k < init.length then some g else none) else init.get? k := by
  intro ps
  induction ps with
  | nil =>
    intro init _ k
    rw [if_neg (List.not_mem_nil k)]
    rfl
  | cons p ps ih =>
    intro init hps k
    rw [List.foldl_cons, ih (init.set p g)
      (fun q hq => by rw [List.length_set]; exact hps q (List.mem_cons_of_mem p hq)) k]
    rw [List.length_set]
    by_cases hk : k ∈ ps
    · rw [if_pos hk, if_pos (List.mem_cons_of_mem p hk)]
    · rw [if_neg hk]
      by_cases hkp : k = p
      · subst hkp
        rw [if_pos (List.mem_cons_self k ps), List.get?_set_eq]
        have hklt : k < init.length := hps k (List.mem_cons_self k ps)
        rw [if_pos hklt]
        rw [List.get?_eq_getElem?, List.getElem?_eq_getElem hklt]
        rfl
      · rw [if_neg (fun hc => (List.mem_cons.mp hc).elim hkp hk),
          List.get?_set_ne _ _ (fun hc => hkp hc.symm)]

/-! ### Claim C1 - cx / ccx build the controlled-swap permutation matrix -/

/-- C1 (amended): for every register width `n > 0` and in-range control and
target positions with control distinct from target, the operator appended by
`cx` is the permutation matrix that maps basis index `i` to `i` with the
target bit flipped exactly when the control bit of `i` is 1, fixing every
other basis index; `ccx` likewise flips the target exactly when both control
bits are 1, for an in-range target distinct from both controls; in
particular, on a 3-qubit all-zero state, `cx(0, 2)` leaves the state
unchanged with amplitude 1 at index 0.  (The original claim, which also
covers `control = target`, fails: there the code appends the identity.) -/
theorem cx_ccx_permutation :
    (∀ n c t : ℕ, 0 < n → c < n → t < n → c ≠ t →
      ∃ M, cxOperator n (c : ℤ) (t : ℤ) = .ok M ∧ M.size = 2 ^ n ∧
        ∀ i, i < 2 ^ n → ∀ j, M.entry i j
          = if j = (if i.testBit (n - c - 1) = true then i ^^^ 2 ^ (n - t - 1) else i)
            then 1 else 0) ∧
    (∀ n c1 c2 t : ℕ, 0 < n → c1 < n → c2 < n → t < n → t ≠ c1 → t ≠ c2 →
      ∃ M, ccxOperator n (c1 : ℤ) (c2 : ℤ) (t : ℤ) = .ok M ∧ M.size = 2 ^ n ∧
        ∀ i, i < 2 ^ n → ∀ j, M.entry i j
          = if j = (if i.testBit (n - c1 - 1) = true ∧ i.testBit (n - c2 - 1) = true
                then i ^^^ 2 ^ (n - t - 1) else i)
            then 1 else 0) ∧
    (∃ c0 c1 : Circuit, QCLCircuit_ofNat 3 = .ok c0 ∧ Circuit.cx c0 0 2 = .ok c1 ∧
      (Circuit.run c1).1 = eBasis 0) := by
  refine ⟨fun n c t hn hc ht hct => cxOperator_ok n c t hn hc ht hct,
    fun n c1 c2 t hn hc1 hc2 ht htc1 htc2 =>
      ccxOperator_ok n c1 c2 t hn hc1 hc2 ht htc1 htc2, ?_⟩
  obtain ⟨M, hM, hsz, hrow⟩ :=
    cxOperator_ok 3 0 2 (by norm_num) (by norm_num) (by norm_num) (by norm_num)
  have h0 : ((0 : ℕ) : ℤ) = 0 := by norm_num
  have h2 : ((2 : ℕ) : ℤ) = 2 := by norm_num
  rw [h0, h2] at hM
  refine ⟨⟨3, eBasis 0, [], none⟩, ⟨3, eBasis 0, [M], none⟩, rfl, ?_, ?_⟩
  · have hdef : Circuit.cx ⟨3, eBasis 0, [], none⟩ 0 2
        = (cxOperator 3 0 2) >>= (fun g =>
            Except.ok { n := 3, state := eBasis 0, gates := [] ++ [g], result := none }) := rfl
    rw [hdef, hM]
    rfl
  · have hstep : (Circuit.run ⟨3, eBasis 0, [M], none⟩).1 = vecMatMul (eBasis 0) M := rfl
    rw [hstep, vecMatMul_eBasis 0 M (by rw [hsz]; norm_num)]
    apply row_eq_eBasis
    intro j
    rw [hrow 0 (by norm_num) j]
    rw [show (0 : ℕ).testBit (3 - 0 - 1) = false from rfl]
    rw [if_neg Bool.false_ne_true]

/-- Witness for C1 at a concrete input: the 2-qubit `cx(0, 1)` operator. -/
theorem cx_ccx_permutation_witness :
    ∃ M, cxOperator 2 ((0 : ℕ) : ℤ) ((1 : ℕ) : ℤ) = .ok M ∧ M.size = 2 ^ 2 ∧
      ∀ i, i < 2 ^ 2 → ∀ j, M.entry i j
        = if j = (if i.testBit (2 - 0 - 1) = true then i ^^^ 2 ^ (2 - 1 - 1) else i)
          then 1 else 0 :=
  cx_ccx_permutation.1 2 0 1 (by decide) (by decide) (by decide) (by decide)

/-- C1 counterexample: the original claim allows `control = target`.  For
`cx(0, 0)` on a 1-qubit register the claim's map sends basis index 1 (whose
control bit is set) to `1 ^^^ 2 ^ 0 = 0`, predicting entry `(1, 0) = 1`; but
the appended operator is the identity: entry `(1, 0) = 0` and entry
`(1, 1) = 1`. -/
theorem cx_same_control_target_counterexample :
    (cxOperator 1 ((0 : ℕ) : ℤ) ((0 : ℕ) : ℤ)).map (fun M => M.entry 1 0) = .ok 0 ∧
    (cxOperator 1 ((0 : ℕ) : ℤ) ((0 : ℕ) : ℤ)).map (fun M => M.entry 1 1) = .ok 1 ∧
    (1 : ℕ).testBit (1 - 0 - 1) = true ∧ (1 : ℕ) ^^^ 2 ^ (1 - 0 - 1) = 0 := by
  refine ⟨by decide, by decide, by decide, by decide⟩

/-! ### Claim C5 - run is a pure fold, idempotent between gate appends -/

/-- C5: `run` is a deterministic pure function of the initial state vector
and the ordered gate list: it folds the state through every gate in order by
row-vector-times-matrix multiplication, recomputes from scratch on each call
(leaving state and gates unchanged, storing the result), and calling it
twice with no gates appended in between returns identical vectors. -/
theorem run_pure_deterministic (c : Circuit) :
    (Circuit.run c).1 = c.gates.foldl vecMatMul c.state ∧
    (Circuit.run ((Circuit.run c).2)).1 = (Circuit.run c).1 ∧
    ((Circuit.run c).2).state = c.state ∧
    ((Circuit.run c).2).gates = c.gates ∧
    ((Circuit.run c).2).n = c.n ∧
    ((Circuit.run c).2).result = some ((Circuit.run c).1) :=
  ⟨rfl, rfl, rfl, rfl, rfl, rfl⟩

/-! ### Claim C4 - Hadamard on every qubit gives the uniform superposition -/

theorem foldl_set_range_map (n : ℕ) (g : Mat) :
    ((List.range n).map Int.ofNat).foldl (fun lst p => lst.set p.toNat g)
      (List.replicate n gateI) = List.replicate n g := by
  rw [List.foldl_map]
  have hfe : (fun (lst : List Mat) (i : ℕ) => lst.set (Int.ofNat i).toNat g)
      = fun (lst : List Mat) (i : ℕ) => lst.set i g := rfl
  rw [hfe]
  apply List.ext_get?
  intro k
  rw [foldl_set_get g (List.range n) (List.replicate n gateI) (fun p hp => by
    rw [List.length_replicate]
    exact List.mem_range.mp hp) k]
  rw [List.length_replicate]
  by_cases hk : k < n
  · rw [if_pos (List.mem_range.mpr hk), if_pos hk]
    rw [List.get?_eq_getElem?, List.getElem?_eq_getElem (by rw [List.length_replicate]; exact hk)]
    rw [List.getElem_replicate]
  · rw [if_neg (fun hc => hk (List.mem_range.mp hc))]
    rw [List.get?_eq_getElem?, List.get?_eq_getElem?]
    rw [List.getElem?_eq_none (by rw [List.length_replicate]; omega),
        List.getElem?_eq_none (by rw [List.length_replicate]; omega)]

theorem expand_gate_all_H (n : ℕ) (hn : 0 < n) :
    expand_gate n gateH ((List.range n).map Int.ofNat)
      = .ok (tpl gateH (List.replicate (n - 1) gateH)) := by
  obtain ⟨m, rfl⟩ : ∃ m, n = m + 1 := ⟨n - 1, by omega⟩
  unfold expand_gate
  rw [foldlM_assign_ok (m + 1) gateH _ (by
    intro p hp
    obtain ⟨i, hi, rfl⟩ := List.mem_map.mp hp
    have hilt := List.mem_range.mp hi
    have hcast : Int.ofNat i = (i : ℤ) := rfl
    constructor
    · rw [hcast]
      omega
    · rw [hcast]
      omega)]
  rw [foldl_set_range_map (m + 1) gateH]
  show tp (List.replicate (m + 1) gateH) = _
  rw [List.replicate_succ]
  rfl

theorem inv_sqrt_two_pow_eq (n : ℕ) :
    ((Real.sqrt 2)⁻¹ : ℝ) ^ n = (2 : ℝ) ^ (-(n : ℝ) / 2) := by
  have h2 : (0 : ℝ) ≤ 2 := by norm_num
  rw [Real.sqrt_eq_rpow]
  rw [← Real.rpow_neg h2]
  rw [← Real.rpow_natCast ((2 : ℝ) ^ (-((1 : ℝ) / 2))) n]
  rw [← Real.rpow_mul h2]
  congr 1
  ring

/-- C4: for every `n > 0`, initializing a circuit with qubit count `n`,
applying a Hadamard gate to every qubit, and calling `run` yields a state
vector whose first `2 ^ n` entries are each `2 ^ (-n/2)`. -/
theorem hadamard_all_uniform (n : ℕ) (hn : 0 < n) :
    ∃ c0 c1 : Circuit, QCLCircuit_ofNat (n : ℤ) = .ok c0 ∧
      Circuit.h c0 ((List.range n).map Int.ofNat) = .ok c1 ∧
      ∀ j, j < 2 ^ n → ((Circuit.run c1).1 j).toReal = (2 : ℝ) ^ (-(n : ℝ) / 2) := by
  have hc0 : QCLCircuit_ofNat (n : ℤ) = .ok ⟨n, eBasis 0, [], none⟩ := by
    unfold QCLCircuit_ofNat
    rw [if_neg (by omega), Int.toNat_natCast]
  set T := tpl gateH (List.replicate (n - 1) gateH) with hT
  have hTsz : T.size = 2 ^ n := by
    rw [hT, tpl_size gateH _ rfl (by
      intro m hm
      rw [List.eq_of_mem_replicate hm]
      rfl)]
    rw [List.length_replicate]
    congr 1
    omega
  refine ⟨⟨n, eBasis 0, [], none⟩, ⟨n, eBasis 0, [T], none⟩, hc0, ?_, ?_⟩
  · have hdef : Circuit.h ⟨n, eBasis 0, [], none⟩ ((List.range n).map Int.ofNat)
        = (expand_gate n gateH ((List.range n).map Int.ofNat)) >>= (fun g =>
            Except.ok { n := n, state := eBasis 0, gates := [] ++ [g], result := none }) := rfl
    rw [hdef, expand_gate_all_H n hn]
    rfl
  · intro j hj
    have hstep : (Circuit.run ⟨n, eBasis 0, [T], none⟩).1 = vecMatMul (eBasis 0) T := rfl
    rw [hstep, vecMatMul_eBasis 0 T (by rw [hTsz]; positivity)]
    have hrow := tpl_H_row0 (n - 1) j (by
      rw [show n - 1 + 1 = n by omega]
      exact hj)
    rw [show n - 1 + 1 = n by omega] at hrow
    show (T.entry 0 j).toReal = _
    rw [hT, hrow, RQ2.toReal_pow, toReal_invSqrt2, inv_sqrt_two_pow_eq]

/-- Witness for C4 at `n = 2`: all four entries evaluate to
`2 ^ (-2/2) = 1/2`. -/
theorem hadamard_all_uniform_witness :
    ∃ c0 c1 : Circuit, QCLCircuit_ofNat ((2 : ℕ) : ℤ) = .ok c0 ∧
      Circuit.h c0 ((List.range 2).map Int.ofNat) = .ok c1 ∧
      ∀ j, j < 2 ^ 2 → ((Circuit.run c1).1 j).toReal = (2 : ℝ) ^ (-((2 : ℕ) : ℝ) / 2) :=
  hadamard_all_uniform 2 (by decide)

/-! ### Claim C9 - gate application rejects positions at or above n -/

theorem expand_gate_err (n : ℕ) (g : Mat) (ps : List ℤ)
    (h : ∃ p ∈ ps, (n : ℤ) ≤ p) : ∃ e, expand_gate n g ps = .error e := by
  obtain ⟨e, he⟩ := foldlM_assign_err n g ps h (List.replicate n gateI)
  refine ⟨e, ?_⟩
  unfold expand_gate
  rw [he]
  rfl

/-- C9 (amended): every gate-application operation (`x`, `h`, `cx`, `ccx`)
fails with an error whenever some supplied bit, control, or target position
is `≥ n` (so no operator is appended).  (The original claim also covers
positions `< 0`, where no error is raised: see the counterexample.) -/
theorem gate_out_of_range_errors :
    (∀ (c : Circuit) (ps : List ℤ), (∃ p ∈ ps, (c.n : ℤ) ≤ p) →
      ∃ e, Circuit.x c ps = .error e) ∧
    (∀ (c : Circuit) (ps : List ℤ), (∃ p ∈ ps, (c.n : ℤ) ≤ p) →
      ∃ e, Circuit.h c ps = .error e) ∧
    (∀ (c : Circuit) (ctrl t : ℤ), ((c.n : ℤ) ≤ ctrl ∨ (c.n : ℤ) ≤ t) →
      ∃ e, Circuit.cx c ctrl t = .error e) ∧
    (∀ (c : Circuit) (c1 c2 t : ℤ),
        ((c.n : ℤ) ≤ c1 ∨ (c.n : ℤ) ≤ c2 ∨ (c.n : ℤ) ≤ t) →
      ∃ e, Circuit.ccx c c1 c2 t = .error e) := by
  refine ⟨?_, ?_, ?_, ?_⟩
  · intro c ps hps
    obtain ⟨e, he⟩ := expand_gate_err c.n gateX ps hps
    refine ⟨e, ?_⟩
    unfold Circuit.x
    rw [he]
    rfl
  · intro c ps hps
    obtain ⟨e, he⟩ := expand_gate_err c.n gateH ps hps
    refine ⟨e, ?_⟩
    unfold Circuit.h
    rw [he]
    rfl
  · intro c ctrl t hd
    unfold Circuit.cx cxOperator
    split_ifs with h1 h2
    · exact ⟨"ValueError: negative shift count", rfl⟩
    · exact ⟨"ValueError: negative shift count", rfl⟩
    · exfalso
      omega
  · intro c c1 c2 t hd
    unfold Circuit.ccx ccxOperator
    split_ifs with h1 h2 h3
    · exact ⟨"ValueError: negative shift count", rfl⟩
    · exact ⟨"ValueError: negative shift count", rfl⟩
    · exact ⟨"ValueError: negative shift count", rfl⟩
    · exfalso
      omega

/-- Witness for C9: `x([5])` on a 2-qubit circuit fails. -/
theorem gate_out_of_range_errors_witness :
    ∃ e, Circuit.x ⟨2, eBasis 0, [], none⟩ [5] = .error e :=
  gate_out_of_range_errors.1 ⟨2, eBasis 0, [], none⟩ [5] ⟨5, by decide, by decide⟩

/-- C9 counterexample: a position outside `[0, n)` need not raise: on a
2-qubit circuit `x(-1)` succeeds (Python list assignment accepts negative
indices, writing from the end) and appends an operator. -/
theorem gate_negative_position_counterexample :
    ((QCLCircuit_ofNat 2).bind (fun c => Circuit.x c [-1])).map
        (fun c => c.gates.length) = .ok 1 ∧
    ¬ ((0 : ℤ) ≤ -1) := by
  refine ⟨by decide, by decide⟩

/-! ### Claim C10 - bit extraction fails on positions past the bit length -/

theorem foldlM_shift_err (n number : ℕ) :
    ∀ (idx : List ℕ), (∃ p ∈ idx, n ≤ p) → ∀ (b : ℕ),
      idx.foldlM
        (fun (bits : ℕ) (i : ℕ) =>
          if (n : ℤ) - i - 1 < 0 then Except.error "ValueError: negative shift count"
          else Except.ok ((bits <<< 1) ||| ((number >>> (n - i - 1)) &&& 1)))
        b = .error "ValueError: negative shift count" := by
  intro idx
  induction idx with
  | nil =>
    rintro ⟨p, hp, _⟩ b
    exact absurd hp (List.not_mem_nil p)
  | cons i idx ih =>
    rintro ⟨p, hp, hpn⟩ b
    simp only [List.foldlM_cons]
    by_cases hi : (n : ℤ) - i - 1 < 0
    · rw [if_pos hi]
      rfl
    · rw [if_neg hi]
      rcases List.mem_cons.mp hp with rfl | hp'
      · exact absurd hpn (by omega)
      · exact ih ⟨p, hp', hpn⟩ _

theorem extract_bits_err (number : ℕ) (idx : List ℕ)
    (h : ∃ p ∈ idx, bit_length number ≤ p) :
    extract_bits number idx = .error "ValueError: negative shift count" := by
  unfold extract_bits
  exact foldlM_shift_err (bit_length number) number idx h 0

theorem counts_nonempty_msr_err (c : Circuit) (auto_run : Bool) (l : List ℕ)
    (hl : l ≠ []) :
    Circuit.counts c auto_run (some l)
      = .error "ValueError: negative shift count" := by
  obtain ⟨p, l', rfl⟩ : ∃ p l', l = p :: l' := by
    cases l with
    | nil => exact absurd rfl hl
    | cons p l' => exact ⟨p, l', rfl⟩
  unfold Circuit.counts
  set c' := if auto_run then (Circuit.run c).2 else c with hc'
  show (do
      let msr ← (List.range (2 ^ c'.n)).foldlM
        (fun (acc : List (ℕ × RQ2)) i => do
          let idx ← extract_bits i (p :: l')
          Except.ok (dictAdd acc idx (c'.resultVec i * c'.resultVec i)))
        ([] : List (ℕ × RQ2))
      Except.ok (msr.filter (fun pr => pr.2.pos)))
    = Except.error "ValueError: negative shift count"
  obtain ⟨k, hk⟩ : ∃ k, 2 ^ c'.n = k + 1 :=
    ⟨2 ^ c'.n - 1, by have := Nat.pos_pow_of_pos c'.n (show 0 < 2 by norm_num); omega⟩
  rw [hk, List.range_succ_eq_map, List.foldlM_cons]
  have hx : extract_bits 0 (p :: l')
      = .error "ValueError: negative shift count" :=
    extract_bits_err 0 (p :: l') ⟨p, List.mem_cons_self p l', by
      show bit_length 0 ≤ p
      exact Nat.zero_le p⟩
  rw [hx]
  rfl

/-- C10: `extract_bits` computes each bit offset relative to the number's own
bit length, so whenever some requested position `p` has
`number.bit_length() <= p` the shift count is negative and the call fails
with an error instead of returning a 0 bit (in particular for `number = 0`
and any non-empty position list); consequently `counts` with a non-empty
measurement position list always fails when it processes basis index 0. -/
theorem extract_bits_negative_shift_fails :
    (∀ (number : ℕ) (idx : List ℕ), (∃ p ∈ idx, bit_length number ≤ p) →
      extract_bits number idx = .error "ValueError: negative shift count") ∧
    (∀ (c : Circuit) (auto_run : Bool) (l : List ℕ), l ≠ [] →
      Circuit.counts c auto_run (some l)
        = .error "ValueError: negative shift count") :=
  ⟨extract_bits_err, counts_nonempty_msr_err⟩

/-- Witness for C10: `extract_bits(0, [0])` and `counts` with measurement
list `[0]` on a 1-qubit circuit both fail. -/
theorem extract_bits_negative_shift_fails_witness :
    extract_bits 0 [0] = .error "ValueError: negative shift count" ∧
    Circuit.counts ⟨1, eBasis 0, [], none⟩ false (some [0])
      = .error "ValueError: negative shift count" :=
  ⟨extract_bits_negative_shift_fails.1 0 [0] ⟨0, by decide, by decide⟩,
   extract_bits_negative_shift_fails.2 ⟨1, eBasis 0, [], none⟩ false [0] (by decide)⟩

/-! ### Claim C7 - counts: percentages in the full branch, crash in the
sub-register branch -/

/-- C7 evidence: on the 1-qubit circuit `H|0>` the full-register branch of
`counts` reports `100 *` the squared amplitude for each index with positive
amplitude (50 for index 0 and 50 for index 1), as the claim says; but the
sub-register branch diverges from the claim: `counts` with measurement list
`[0]` raises `ValueError` from `extract_bits` at basis index 0 instead of
reporting the marginalized percentages (and its accumulator stores raw
probabilities, never multiplied by 100). -/
theorem counts_percentage_bug :
    ∃ c0 c1 : Circuit, QCLCircuit_ofNat 1 = .ok c0 ∧ Circuit.h c0 [0] = .ok c1 ∧
      Circuit.counts c1 true none = .ok [(0, 50), (1, 50)] ∧
      Circuit.counts c1 true (some [0])
        = .error "ValueError: negative shift count" := by
  refine ⟨⟨1, eBasis 0, [], none⟩, ⟨1, eBasis 0, [gateH], none⟩, rfl, rfl, ?_,
    counts_nonempty_msr_err ⟨1, eBasis 0, [gateH], none⟩ true [0] (by decide)⟩
  have hpos : invSqrt2.pos = true :=
    (RQ2.pos_iff invSqrt2).mpr (by rw [toReal_invSqrt2]; positivity)
  have h50 : invSqrt2 * invSqrt2 * 100 = (50 : RQ2) := by
    have h100 : (100 : RQ2) = ⟨100, 0⟩ := by
      show (⟨((100 : ℕ) : ℚ), 0⟩ : RQ2) = ⟨100, 0⟩
      norm_num
    have h50' : (50 : RQ2) = ⟨50, 0⟩ := by
      show (⟨((50 : ℕ) : ℚ), 0⟩ : RQ2) = ⟨50, 0⟩
      norm_num
    rw [h100, h50']
    ext
    · show (invSqrt2 * invSqrt2 * (⟨100, 0⟩ : RQ2)).a = 50
      norm_num [invSqrt2]
    · show (invSqrt2 * invSqrt2 * (⟨100, 0⟩ : RQ2)).b = 0
      norm_num [invSqrt2]
  show Except.ok ((List.range (2 ^ 1)).filterMap
      (fun i => if ((vecMatMul (eBasis 0) gateH) i).pos = true
        then some (i, (vecMatMul (eBasis 0) gateH) i * (vecMatMul (eBasis 0) gateH) i * 100)
        else none))
    = Except.ok [(0, (50 : RQ2)), (1, 50)]
  rw [vecMatMul_eBasis 0 gateH (by decide)]
  show Except.ok (List.filterMap
      (fun i => if (gateH.entry 0 i).pos = true
        then some (i, gateH.entry 0 i * gateH.entry 0 i * 100) else none) [0, 1])
    = Except.ok [(0, (50 : RQ2)), (1, 50)]
  have h00 : gateH.entry 0 0 = invSqrt2 := rfl
  have h01 : gateH.entry 0 1 = invSqrt2 := rfl
  simp [h00, h01, hpos, h50]

/-! ### Claim C6 - the half adder truth table -/

theorem except_ok_bind {α β : Type} (a : α) (f : α → Except String β) :
    (Except.ok a : Except String α) >>= f = f a := rfl

theorem step_eBasis (M : Mat) (k v : ℕ) (hk : k < M.size)
    (hrow : ∀ j, M.entry k j = if j = v then 1 else 0) :
    vecMatMul (eBasis k) M = eBasis v := by
  rw [vecMatMul_eBasis k M hk]
  exact row_eq_eBasis M k v hrow

theorem xlayer_size (ba bb : Bool) : (tpl (xg ba) [xg bb, gateI, gateI]).size = 2 ^ 4 := by
  refine tpl_size (xg ba) _ (xg_size ba) ?_
  intro m hm
  rcases List.mem_cons.mp hm with rfl | hm1
  · exact xg_size bb
  · rcases List.mem_cons.mp hm1 with rfl | hm2
    · rfl
    · rcases List.mem_cons.mp hm2 with rfl | hm3
      · rfl
      · exact absurd hm3 (List.not_mem_nil m)

theorem xlayer_row (ba bb : Bool) (k : ℕ) (hk : k < 2 ^ 4) (j : ℕ) :
    (tpl (xg ba) [xg bb, gateI, gateI]).entry k j
      = if j = k ^^^ bitsVal [ba, bb, false, false] then 1 else 0 :=
  tpl_xg_row ba [bb, false, false] k hk j

theorem half_adder_case00 :
    (∃ c, HalfAdderCircuit 0 0 = .ok c) ∧ HalfAdder_sum 0 0 = .ok 0 := by
  obtain ⟨M1, hM1, hM1sz, hM1row⟩ :=
    cxOperator_ok 4 0 3 (by norm_num) (by norm_num) (by norm_num) (by norm_num)
  rw [show ((0 : ℕ) : ℤ) = 0 from by norm_num,
    show ((3 : ℕ) : ℤ) = 3 from by norm_num] at hM1
  obtain ⟨M2, hM2, hM2sz, hM2row⟩ :=
    cxOperator_ok 4 1 3 (by norm_num) (by norm_num) (by norm_num) (by norm_num)
  rw [show ((1 : ℕ) : ℤ) = 1 from by norm_num,
    show ((3 : ℕ) : ℤ) = 3 from by norm_num] at hM2
  obtain ⟨M3, hM3, hM3sz, hM3row⟩ :=
    ccxOperator_ok 4 0 1 2 (by norm_num) (by norm_num) (by norm_num) (by norm_num)
      (by norm_num) (by norm_num)
  rw [show ((0 : ℕ) : ℤ) = 0 from by norm_num, show ((1 : ℕ) : ℤ) = 1 from by norm_num,
    show ((2 : ℕ) : ℤ) = 2 from by norm_num] at hM3
  have hpre : HalfAdderCircuit 0 0
      = (Circuit.cx ⟨4, eBasis 0,
          [tpl (xg false) [xg false, gateI, gateI], tpl gateI [gateI, gateI, gateI]], none⟩ 0 3)
        >>= (fun c2 => (Circuit.cx c2 1 3) >>= (fun c3 =>
          (Circuit.ccx c3 0 1 2) >>= (fun c4 => Except.ok c4))) := rfl
  have hcx1 : Circuit.cx ⟨4, eBasis 0,
      [tpl (xg false) [xg false, gateI, gateI], tpl gateI [gateI, gateI, gateI]], none⟩ 0 3
      = .ok ⟨4, eBasis 0,
        [tpl (xg false) [xg false, gateI, gateI], tpl gateI [gateI, gateI, gateI], M1], none⟩ := by
    have hd : Circuit.cx ⟨4, eBasis 0,
        [tpl (xg false) [xg false, gateI, gateI], tpl gateI [gateI, gateI, gateI]], none⟩ 0 3
        = (cxOperator 4 0 3) >>= (fun g => Except.ok ⟨4, eBasis 0,
            [tpl (xg false) [xg false, gateI, gateI], tpl gateI [gateI, gateI, gateI]] ++ [g],
            none⟩) := rfl
    rw [hd, hM1]
    rfl
  have hcx2 : Circuit.cx ⟨4, eBasis 0,
      [tpl (xg false) [xg false, gateI, gateI], tpl gateI [gateI, gateI, gateI], M1], none⟩ 1 3
      = .ok ⟨4, eBasis 0,
        [tpl (xg false) [xg false, gateI, gateI], tpl gateI [gateI, gateI, gateI], M1, M2],
        none⟩ := by
    have hd : Circuit.cx ⟨4, eBasis 0,
        [tpl (xg false) [xg false, gateI, gateI], tpl gateI [gateI, gateI, gateI], M1], none⟩ 1 3
        = (cxOperator 4 1 3) >>= (fun g => Except.ok ⟨4, eBasis 0,
            [tpl (xg false) [xg false, gateI, gateI], tpl gateI [gateI, gateI, gateI], M1] ++ [g],
            none⟩) := rfl
    rw [hd, hM2]
    rfl
  have hccx : Circuit.ccx ⟨4, eBasis 0,
      [tpl (xg false) [xg false, gateI, gateI], tpl gateI [gateI, gateI, gateI], M1, M2],
      none⟩ 0 1 2
      = .ok ⟨4, eBasis 0,
        [tpl (xg false) [xg false, gateI, gateI], tpl gateI [gateI, gateI, gateI], M1, M2, M3],
        none⟩ := by
    have hd : Circuit.ccx ⟨4, eBasis 0,
        [tpl (xg false) [xg false, gateI, gateI], tpl gateI [gateI, gateI, gateI], M1, M2],
        none⟩ 0 1 2
        = (ccxOperator 4 0 1 2) >>= (fun g => Except.ok ⟨4, eBasis 0,
            [tpl (xg false) [xg false, gateI, gateI], tpl gateI [gateI, gateI, gateI], M1, M2]
              ++ [g], none⟩) := rfl
    rw [hd, hM3]
    rfl
  have hcirc : HalfAdderCircuit 0 0 = .ok ⟨4, eBasis 0,
      [tpl (xg false) [xg false, gateI, gateI], tpl gateI [gateI, gateI, gateI], M1, M2, M3],
      none⟩ := by
    rw [hpre, hcx1, except_ok_bind, hcx2, except_ok_bind, hccx, except_ok_bind]
  have hres : (Circuit.run ⟨4, eBasis 0,
      [tpl (xg false) [xg false, gateI, gateI], tpl gateI [gateI, gateI, gateI], M1, M2, M3],
      none⟩).1 = eBasis 0 := by
    have hfold : (Circuit.run ⟨4, eBasis 0,
        [tpl (xg false) [xg false, gateI, gateI], tpl gateI [gateI, gateI, gateI], M1, M2, M3],
        none⟩).1
        = List.foldl vecMatMul (eBasis 0)
            [tpl (xg false) [xg false, gateI, gateI], tpl gateI [gateI, gateI, gateI], M1, M2, M3] := rfl
    rw [hfold, List.foldl_cons, List.foldl_cons, List.foldl_cons, List.foldl_cons,
      List.foldl_cons, List.foldl_nil]
    rw [step_eBasis (tpl (xg false) [xg false, gateI, gateI]) 0 0
      (by rw [xlayer_size]; norm_num) (fun j => xlayer_row false false 0 (by norm_num) j)]
    rw [step_eBasis (tpl gateI [gateI, gateI, gateI]) 0 0
      (by rw [show (tpl gateI [gateI, gateI, gateI]).size = 2 ^ 4
          from identityTP_size 4 (by norm_num)]; norm_num)
      (fun j => identityTP_row 4 (by norm_num) 0 (by norm_num) j)]
    rw [step_eBasis M1 0 0 (by rw [hM1sz]; norm_num)
      (fun j => hM1row 0 (by norm_num) j)]
    rw [step_eBasis M2 0 0 (by rw [hM2sz]; norm_num)
      (fun j => hM2row 0 (by norm_num) j)]
    rw [step_eBasis M3 0 0 (by rw [hM3sz]; norm_num)
      (fun j => hM3row 0 (by norm_num) j)]
  refine ⟨⟨_, hcirc⟩, ?_⟩
  unfold HalfAdder_sum
  rw [hcirc, except_ok_bind]
  show (match (List.range (2 ^ 4)).find?
      (fun i => (Circuit.run ⟨4, eBasis 0,
        [tpl (xg false) [xg false, gateI, gateI], tpl gateI [gateI, gateI, gateI], M1, M2, M3],
        none⟩).1 i == 1) with
    | none => Except.error "IndexError: index 0 is out of bounds"
    | some sum_state => Except.ok (sum_state % 4)) = Except.ok 0
  rw [hres]
  rfl

theorem half_adder_case10 :
    (∃ c, HalfAdderCircuit 1 0 = .ok c) ∧ HalfAdder_sum 1 0 = .ok 1 := by
  obtain ⟨M1, hM1, hM1sz, hM1row⟩ :=
    cxOperator_ok 4 0 3 (by norm_num) (by norm_num) (by norm_num) (by norm_num)
  rw [show ((0 : ℕ) : ℤ) = 0 from by norm_num,
    show ((3 : ℕ) : ℤ) = 3 from by norm_num] at hM1
  obtain ⟨M2, hM2, hM2sz, hM2row⟩ :=
    cxOperator_ok 4 1 3 (by norm_num) (by norm_num) (by norm_num) (by norm_num)
  rw [show ((1 : ℕ) : ℤ) = 1 from by norm_num,
    show ((3 : ℕ) : ℤ) = 3 from by norm_num] at hM2
  obtain ⟨M3, hM3, hM3sz, hM3row⟩ :=
    ccxOperator_ok 4 0 1 2 (by norm_num) (by norm_num) (by norm_num) (by norm_num)
      (by norm_num) (by norm_num)
  rw [show ((0 : ℕ) : ℤ) = 0 from by norm_num, show ((1 : ℕ) : ℤ) = 1 from by norm_num,
    show ((2 : ℕ) : ℤ) = 2 from by norm_num] at hM3
  have hpre : HalfAdderCircuit 1 0
      = (Circuit.cx ⟨4, eBasis 0,
          [tpl (xg true) [xg false, gateI, gateI], tpl gateI [gateI, gateI, gateI]], none⟩ 0 3)
        >>= (fun c2 => (Circuit.cx c2 1 3) >>= (fun c3 =>
          (Circuit.ccx c3 0 1 2) >>= (fun c4 => Except.ok c4))) := rfl
  have hcx1 : Circuit.cx ⟨4, eBasis 0,
      [tpl (xg true) [xg false, gateI, gateI], tpl gateI [gateI, gateI, gateI]], none⟩ 0 3
      = .ok ⟨4, eBasis 0,
        [tpl (xg true) [xg false, gateI, gateI], tpl gateI [gateI, gateI, gateI], M1], none⟩ := by
    have hd : Circuit.cx ⟨4, eBasis 0,
        [tpl (xg true) [xg false, gateI, gateI], tpl gateI [gateI, gateI, gateI]], none⟩ 0 3
        = (cxOperator 4 0 3) >>= (fun g => Except.ok ⟨4, eBasis 0,
            [tpl (xg true) [xg false, gateI, gateI], tpl gateI [gateI, gateI, gateI]] ++ [g],
            none⟩) := rfl
    rw [hd, hM1]
    rfl
  have hcx2 : Circuit.cx ⟨4, eBasis 0,
      [tpl (xg true) [xg false, gateI, gateI], tpl gateI [gateI, gateI, gateI], M1], none⟩ 1 3
      = .ok ⟨4, eBasis 0,
        [tpl (xg true) [xg false, gateI, gateI], tpl gateI [gateI, gateI, gateI], M1, M2],
        none⟩ := by
    have hd : Circuit.cx ⟨4, eBasis 0,
        [tpl (xg true) [xg false, gateI, gateI], tpl gateI [gateI, gateI, gateI], M1], none⟩ 1 3
        = (cxOperator 4 1 3) >>= (fun g => Except.ok ⟨4, eBasis 0,
            [tpl (xg true) [xg false, gateI, gateI], tpl gateI [gateI, gateI, gateI], M1] ++ [g],
            none⟩) := rfl
    rw [hd, hM2]
    rfl
  have hccx : Circuit.ccx ⟨4, eBasis 0,
      [tpl (xg true) [xg false, gateI, gateI], tpl gateI [gateI, gateI, gateI], M1, M2],
      none⟩ 0 1 2
      = .ok ⟨4, eBasis 0,
        [tpl (xg true) [xg false, gateI, gateI], tpl gateI [gateI, gateI, gateI], M1, M2, M3],
        none⟩ := by
    have hd : Circuit.ccx ⟨4, eBasis 0,
        [tpl (xg true) [xg false, gateI, gateI], tpl gateI [gateI, gateI, gateI], M1, M2],
        none⟩ 0 1 2
        = (ccxOperator 4 0 1 2) >>= (fun g => Except.ok ⟨4, eBasis 0,
            [tpl (xg true) [xg false, gateI, gateI], tpl gateI [gateI, gateI, gateI], M1, M2]
              ++ [g], none⟩) := rfl
    rw [hd, hM3]
    rfl
  have hcirc : HalfAdderCircuit 1 0 = .ok ⟨4, eBasis 0,
      [tpl (xg true) [xg false, gateI, gateI], tpl gateI [gateI, gateI, gateI], M1, M2, M3],
      none⟩ := by
    rw [hpre, hcx1, except_ok_bind, hcx2, except_ok_bind, hccx, except_ok_bind]
  have hres : (Circuit.run ⟨4, eBasis 0,
      [tpl (xg true) [xg false, gateI, gateI], tpl gateI [gateI, gateI, gateI], M1, M2, M3],
      none⟩).1 = eBasis 9 := by
    have hfold : (Circuit.run ⟨4, eBasis 0,
        [tpl (xg true) [xg false, gateI, gateI], tpl gateI [gateI, gateI, gateI], M1, M2, M3],
        none⟩).1
        = List.foldl vecMatMul (eBasis 0)
            [tpl (xg true) [xg false, gateI, gateI], tpl gateI [gateI, gateI, gateI], M1, M2, M3] := rfl
    rw [hfold, List.foldl_cons, List.foldl_cons, List.foldl_cons, List.foldl_cons,
      List.foldl_cons, List.foldl_nil]
    rw [step_eBasis (tpl (xg true) [xg false, gateI, gateI]) 0 8
      (by rw [xlayer_size]; norm_num) (fun j => xlayer_row true false 0 (by norm_num) j)]
    rw [step_eBasis (tpl gateI [gateI, gateI, gateI]) 8 8
      (by rw [show (tpl gateI [gateI, gateI, gateI]).size = 2 ^ 4
          from identityTP_size 4 (by norm_num)]; norm_num)
      (fun j => identityTP_row 4 (by norm_num) 8 (by norm_num) j)]
    rw [step_eBasis M1 8 9 (by rw [hM1sz]; norm_num)
      (fun j => hM1row 8 (by norm_num) j)]
    rw [step_eBasis M2 9 9 (by rw [hM2sz]; norm_num)
      (fun j => hM2row 9 (by norm_num) j)]
    rw [step_eBasis M3 9 9 (by rw [hM3sz]; norm_num)
      (fun j => hM3row 9 (by norm_num) j)]
  refine ⟨⟨_, hcirc⟩, ?_⟩
  unfold HalfAdder_sum
  rw [hcirc, except_ok_bind]
  show (match (List.range (2 ^ 4)).find?
      (fun i => (Circuit.run ⟨4, eBasis 0,
        [tpl (xg true) [xg false, gateI, gateI], tpl gateI [gateI, gateI, gateI], M1, M2, M3],
        none⟩).1 i == 1) with
    | none => Except.error "IndexError: index 0 is out of bounds"
    | some sum_state => Except.ok (sum_state % 4)) = Except.ok 1
  rw [hres]
  rfl

theorem half_adder_case01 :
    (∃ c, HalfAdderCircuit 0 1 = .ok c) ∧ HalfAdder_sum 0 1 = .ok 1 := by
  obtain ⟨M1, hM1, hM1sz, hM1row⟩ :=
    cxOperator_ok 4 0 3 (by norm_num) (by norm_num) (by norm_num) (by norm_num)
  rw [show ((0 : ℕ) : ℤ) = 0 from by norm_num,
    show ((3 : ℕ) : ℤ) = 3 from by norm_num] at hM1
  obtain ⟨M2, hM2, hM2sz, hM2row⟩ :=
    cxOperator_ok 4 1 3 (by norm_num) (by norm_num) (by norm_num) (by norm_num)
  rw [show ((1 : ℕ) : ℤ) = 1 from by norm_num,
    show ((3 : ℕ) : ℤ) = 3 from by norm_num] at hM2
  obtain ⟨M3, hM3, hM3sz, hM3row⟩ :=
    ccxOperator_ok 4 0 1 2 (by norm_num) (by norm_num) (by norm_num) (by norm_num)
      (by norm_num) (by norm_num)
  rw [show ((0 : ℕ) : ℤ) = 0 from by norm_num, show ((1 : ℕ) : ℤ) = 1 from by norm_num,
    show ((2 : ℕ) : ℤ) = 2 from by norm_num] at hM3
  have hpre : HalfAdderCircuit 0 1
      = (Circuit.cx ⟨4, eBasis 0,
          [tpl (xg false) [xg true, gateI, gateI], tpl gateI [gateI, gateI, gateI]], none⟩ 0 3)
        >>= (fun c2 => (Circuit.cx c2 1 3) >>= (fun c3 =>
          (Circuit.ccx c3 0 1 2) >>= (fun c4 => Except.ok c4))) := rfl
  have hcx1 : Circuit.cx ⟨4, eBasis 0,
      [tpl (xg false) [xg true, gateI, gateI], tpl gateI [gateI, gateI, gateI]], none⟩ 0 3
      = .ok ⟨4, eBasis 0,
        [tpl (xg false) [xg true, gateI, gateI], tpl gateI [gateI, gateI, gateI], M1], none⟩ := by
    have hd : Circuit.cx ⟨4, eBasis 0,
        [tpl (xg false) [xg true, gateI, gateI], tpl gateI [gateI, gateI, gateI]], none⟩ 0 3
        = (cxOperator 4 0 3) >>= (fun g => Except.ok ⟨4, eBasis 0,
            [tpl (xg false) [xg true, gateI, gateI], tpl gateI [gateI, gateI, gateI]] ++ [g],
            none⟩) := rfl
    rw [hd, hM1]
    rfl
  have hcx2 : Circuit.cx ⟨4, eBasis 0,
      [tpl (xg false) [xg true, gateI, gateI], tpl gateI [gateI, gateI, gateI], M1], none⟩ 1 3
      = .ok ⟨4, eBasis 0,
        [tpl (xg false) [xg true, gateI, gateI], tpl gateI [gateI, gateI, gateI], M1, M2],
        none⟩ := by
    have hd : Circuit.cx ⟨4, eBasis 0,
        [tpl (xg false) [xg true, gateI, gateI], tpl gateI [gateI, gateI, gateI], M1], none⟩ 1 3
        = (cxOperator 4 1 3) >>= (fun g => Except.ok ⟨4, eBasis 0,
            [tpl (xg false) [xg true, gateI, gateI], tpl gateI [gateI, gateI, gateI], M1] ++ [g],
            none⟩) := rfl
    rw [hd, hM2]
    rfl
  have hccx : Circuit.ccx ⟨4, eBasis 0,
      [tpl (xg false) [xg true, gateI, gateI], tpl gateI [gateI, gateI, gateI], M1, M2],
      none⟩ 0 1 2
      = .ok ⟨4, eBasis 0,
        [tpl (xg false) [xg true, gateI, gateI], tpl gateI [gateI, gateI, gateI], M1, M2, M3],
        none⟩ := by
    have hd : Circuit.ccx ⟨4, eBasis 0,
        [tpl (xg false) [xg true, gateI, gateI], tpl gateI [gateI, gateI, gateI], M1, M2],
        none⟩ 0 1 2
        = (ccxOperator 4 0 1 2) >>= (fun g => Except.ok ⟨4, eBasis 0,
            [tpl (xg false) [xg true, gateI, gateI], tpl gateI [gateI, gateI, gateI], M1, M2]
              ++ [g], none⟩) := rfl
    rw [hd, hM3]
    rfl
  have hcirc : HalfAdderCircuit 0 1 = .ok ⟨4, eBasis 0,
      [tpl (xg false) [xg true, gateI, gateI], tpl gateI [gateI, gateI, gateI], M1, M2, M3],
      none⟩ := by
    rw [hpre, hcx1, except_ok_bind, hcx2, except_ok_bind, hccx, except_ok_bind]
  have hres : (Circuit.run ⟨4, eBasis 0,
      [tpl (xg false) [xg true, gateI, gateI], tpl gateI [gateI, gateI, gateI], M1, M2, M3],
      none⟩).1 = eBasis 5 := by
    have hfold : (Circuit.run ⟨4, eBasis 0,
        [tpl (xg false) [xg true, gateI, gateI], tpl gateI [gateI, gateI, gateI], M1, M2, M3],
        none⟩).1
        = List.foldl vecMatMul (eBasis 0)
            [tpl (xg false) [xg true, gateI, gateI], tpl gateI [gateI, gateI, gateI], M1, M2, M3] := rfl
    rw [hfold, List.foldl_cons, List.foldl_cons, List.foldl_cons, List.foldl_cons,
      List.foldl_cons, List.foldl_nil]
    rw [step_eBasis (tpl (xg false) [xg true, gateI, gateI]) 0 4
      (by rw [xlayer_size]; norm_num) (fun j => xlayer_row false true 0 (by norm_num) j)]
    rw [step_eBasis (tpl gateI [gateI, gateI, gateI]) 4 4
      (by rw [show (tpl gateI [gateI, gateI, gateI]).size = 2 ^ 4
          from identityTP_size 4 (by norm_num)]; norm_num)
      (fun j => identityTP_row 4 (by norm_num) 4 (by norm_num) j)]
    rw [step_eBasis M1 4 4 (by rw [hM1sz]; norm_num)
      (fun j => hM1row 4 (by norm_num) j)]
    rw [step_eBasis M2 4 5 (by rw [hM2sz]; norm_num)
      (fun j => hM2row 4 (by norm_num) j)]
    rw [step_eBasis M3 5 5 (by rw [hM3sz]; norm_num)
      (fun j => hM3row 5 (by norm_num) j)]
  refine ⟨⟨_, hcirc⟩, ?_⟩
  unfold HalfAdder_sum
  rw [hcirc, except_ok_bind]
  show (match (List.range (2 ^ 4)).find?
      (fun i => (Circuit.run ⟨4, eBasis 0,
        [tpl (xg false) [xg true, gateI, gateI], tpl gateI [gateI, gateI, gateI], M1, M2, M3],
        none⟩).1 i == 1) with
    | none => Except.error "IndexError: index 0 is out of bounds"
    | some sum_state => Except.ok (sum_state % 4)) = Except.ok 1
  rw [hres]
  rfl

theorem half_adder_case11 :
    (∃ c, HalfAdderCircuit 1 1 = .ok c) ∧ HalfAdder_sum 1 1 = .ok 2 := by
  obtain ⟨M1, hM1, hM1sz, hM1row⟩ :=
    cxOperator_ok 4 0 3 (by norm_num) (by norm_num) (by norm_num) (by norm_num)
  rw [show ((0 : ℕ) : ℤ) = 0 from by norm_num,
    show ((3 : ℕ) : ℤ) = 3 from by norm_num] at hM1
  obtain ⟨M2, hM2, hM2sz, hM2row⟩ :=
    cxOperator_ok 4 1 3 (by norm_num) (by norm_num) (by norm_num) (by norm_num)
  rw [show ((1 : ℕ) : ℤ) = 1 from by norm_num,
    show ((3 : ℕ) : ℤ) = 3 from by norm_num] at hM2
  obtain ⟨M3, hM3, hM3sz, hM3row⟩ :=
    ccxOperator_ok 4 0 1 2 (by norm_num) (by norm_num) (by norm_num) (by norm_num)
      (by norm_num) (by norm_num)
  rw [show ((0 : ℕ) : ℤ) = 0 from by norm_num, show ((1 : ℕ) : ℤ) = 1 from by norm_num,
    show ((2 : ℕ) : ℤ) = 2 from by norm_num] at hM3
  have hpre : HalfAdderCircuit 1 1
      = (Circuit.cx ⟨4, eBasis 0,
          [tpl (xg true) [xg true, gateI, gateI], tpl gateI [gateI, gateI, gateI]], none⟩ 0 3)
        >>= (fun c2 => (Circuit.cx c2 1 3) >>= (fun c3 =>
          (Circuit.ccx c3 0 1 2) >>= (fun c4 => Except.ok c4))) := rfl
  have hcx1 : Circuit.cx ⟨4, eBasis 0,
      [tpl (xg true) [xg true, gateI, gateI], tpl gateI [gateI, gateI, gateI]], none⟩ 0 3
      = .ok ⟨4, eBasis 0,
        [tpl (xg true) [xg true, gateI, gateI], tpl gateI [gateI, gateI, gateI], M1], none⟩ := by
    have hd : Circuit.cx ⟨4, eBasis 0,
        [tpl (xg true) [xg true, gateI, gateI], tpl gateI [gateI, gateI, gateI]], none⟩ 0 3
        = (cxOperator 4 0 3) >>= (fun g => Except.ok ⟨4, eBasis 0,
            [tpl (xg true) [xg true, gateI, gateI], tpl gateI [gateI, gateI, gateI]] ++ [g],
            none⟩) := rfl
    rw [hd, hM1]
    rfl
  have hcx2 : Circuit.cx ⟨4, eBasis 0,
      [tpl (xg true) [xg true, gateI, gateI], tpl gateI [gateI, gateI, gateI], M1], none⟩ 1 3
      = .ok ⟨4, eBasis 0,
        [tpl (xg true) [xg true, gateI, gateI], tpl gateI [gateI, gateI, gateI], M1, M2],
        none⟩ := by
    have hd : Circuit.cx ⟨4, eBasis 0,
        [tpl (xg true) [xg true, gateI, gateI], tpl gateI [gateI, gateI, gateI], M1], none⟩ 1 3
        = (cxOperator 4 1 3) >>= (fun g => Except.ok ⟨4, eBasis 0,
            [tpl (xg true) [xg true, gateI, gateI], tpl gateI [gateI, gateI, gateI], M1] ++ [g],
            none⟩) := rfl
    rw [hd, hM2]
    rfl
  have hccx : Circuit.ccx ⟨4, eBasis 0,
      [tpl (xg true) [xg true, gateI, gateI], tpl gateI [gateI, gateI, gateI], M1, M2],
      none⟩ 0 1 2
      = .ok ⟨4, eBasis 0,
        [tpl (xg true) [xg true, gateI, gateI], tpl gateI [gateI, gateI, gateI], M1, M2, M3],
        none⟩ := by
    have hd : Circuit.ccx ⟨4, eBasis 0,
        [tpl (xg true) [xg true, gateI, gateI], tpl gateI [gateI, gateI, gateI], M1, M2],
        none⟩ 0 1 2
        = (ccxOperator 4 0 1 2) >>= (fun g => Except.ok ⟨4, eBasis 0,
            [tpl (xg true) [xg true, gateI, gateI], tpl gateI [gateI, gateI, gateI], M1, M2]
              ++ [g], none⟩) := rfl
    rw [hd, hM3]
    rfl
  have hcirc : HalfAdderCircuit 1 1 = .ok ⟨4, eBasis 0,
      [tpl (xg true) [xg true, gateI, gateI], tpl gateI [gateI, gateI, gateI], M1, M2, M3],
      none⟩ := by
    rw [hpre, hcx1, except_ok_bind, hcx2, except_ok_bind, hccx, except_ok_bind]
  have hres : (Circuit.run ⟨4, eBasis 0,
      [tpl (xg true) [xg true, gateI, gateI], tpl gateI [gateI, gateI, gateI], M1, M2, M3],
      none⟩).1 = eBasis 14 := by
    have hfold : (Circuit.run ⟨4, eBasis 0,
        [tpl (xg true) [xg true, gateI, gateI], tpl gateI [gateI, gateI, gateI], M1, M2, M3],
        none⟩).1
        = List.foldl vecMatMul (eBasis 0)
            [tpl (xg true) [xg true, gateI, gateI], tpl gateI [gateI, gateI, gateI], M1, M2, M3] := rfl
    rw [hfold, List.foldl_cons, List.foldl_cons, List.foldl_cons, List.foldl_cons,
      List.foldl_cons, List.foldl_nil]
    rw [step_eBasis (tpl (xg true) [xg true, gateI, gateI]) 0 12
      (by rw [xlayer_size]; norm_num) (fun j => xlayer_row true true 0 (by norm_num) j)]
    rw [step_eBasis (tpl gateI [gateI, gateI, gateI]) 12 12
      (by rw [show (tpl gateI [gateI, gateI, gateI]).size = 2 ^ 4
          from identityTP_size 4 (by norm_num)]; norm_num)
      (fun j => identityTP_row 4 (by norm_num) 12 (by norm_num) j)]
    rw [step_eBasis M1 12 13 (by rw [hM1sz]; norm_num)
      (fun j => hM1row 12 (by norm_num) j)]
    rw [step_eBasis M2 13 12 (by rw [hM2sz]; norm_num)
      (fun j => hM2row 13 (by norm_num) j)]
    rw [step_eBasis M3 12 14 (by rw [hM3sz]; norm_num)
      (fun j => hM3row 12 (by norm_num) j)]
  refine ⟨⟨_, hcirc⟩, ?_⟩
  unfold HalfAdder_sum
  rw [hcirc, except_ok_bind]
  show (match (List.range (2 ^ 4)).find?
      (fun i => (Circuit.run ⟨4, eBasis 0,
        [tpl (xg true) [xg true, gateI, gateI], tpl gateI [gateI, gateI, gateI], M1, M2, M3],
        none⟩).1 i == 1) with
    | none => Except.error "IndexError: index 0 is out of bounds"
    | some sum_state => Except.ok (sum_state % 4)) = Except.ok 2
  rw [hres]
  rfl

/-- C6: for every pair of one-bit inputs, constructing the half-adder
circuit succeeds and its `sum()` reading (the last two binary digits:
carry then sum bit) equals `a + b`: `(0,0)` gives 0, `(1,0)` and `(0,1)`
give 1, and `(1,1)` gives sum bit 0 with carry 1, i.e. the 2-bit reading
`0b10 = 2`. -/
theorem half_adder_truth_table (a b : ℤ) (ha : a = 0 ∨ a = 1) (hb : b = 0 ∨ b = 1) :
    (∃ c, HalfAdderCircuit a b = .ok c) ∧ HalfAdder_sum a b = .ok (a + b).toNat := by
  rcases ha with rfl | rfl <;> rcases hb with rfl | rfl
  · exact half_adder_case00
  · exact half_adder_case01
  · exact half_adder_case10
  · exact half_adder_case11

/-- Witness for C6 at `(1, 1)`: the carry-and-sum reading is `0b10 = 2`. -/
theorem half_adder_truth_table_witness :
    (∃ c, HalfAdderCircuit 1 1 = .ok c) ∧ HalfAdder_sum 1 1 = .ok ((1 : ℤ) + 1).toNat :=
  half_adder_truth_table 1 1 (Or.inr rfl) (Or.inr rfl)

/-! ### Claim C8 - initialization failures and the state they leave behind -/

/-- Outcome of a call to `QCLCircuit._initialize_state` on an existing
object: the raised error (if any) together with the object's fields after
the call returns or raises. -/
structure InitOutcome where
  error : Option String
  after : Circuit

/-- The string branch of `QCLCircuit._initialize_state` on an existing
object: `self.gates = []` and `self._result = None` are assigned BEFORE the
input is validated, then the binary string is checked and, on success, `n`
and `_state` are replaced. -/
def initialize_state_str (c : Circuit) (s : String) : InitOutcome :=
  let c1 : Circuit := { c with gates := [], result := none }
  if matches01 s = false then ⟨some "BinaryStringError", c1⟩
  else ⟨none, { c1 with n := s.length, state := eBasis (bitstring_val s) }⟩

/-- The int branch of `QCLCircuit._initialize_state` on an existing object:
gates and result are cleared first, then non-positive qubit counts raise. -/
def initialize_state_int (c : Circuit) (k : ℤ) : InitOutcome :=
  let c1 : Circuit := { c with gates := [], result := none }
  if k ≤ 0 then ⟨some "PositiveValueError", c1⟩
  else ⟨none, { c1 with n := k.toNat, state := eBasis 0 }⟩

/-- The list branch of `QCLCircuit._initialize_state` on an existing object:
gates and result are cleared first; a length that is zero or not a power of
two raises `PowerOfTwoLengthError`; `__normalize` raises `ValueError` when
the numpy 2-norm is zero, which for exact rational entries happens exactly
when the sum of squares is zero.  The normalisation itself (division by the
in-general irrational norm) is abstracted as the `normalize` parameter: it
is applied only on the success path, which no failure property depends
on. -/
def initialize_state_list (normalize : List ℚ → ℕ → RQ2) (c : Circuit)
    (v : List ℚ) : InitOutcome :=
  let c1 : Circuit := { c with gates := [], result := none }
  if v.length &&& (v.length - 1) ≠ 0 ∨ v.length = 0 then
    ⟨some "PowerOfTwoLengthError", c1⟩
  else if (v.map (fun x => x * x)).sum = 0 then
    ⟨some "ValueError: Cannot normalize a zero vector", c1⟩
  else ⟨none, { c1 with state := normalize v, n := bit_length v.length - 1 }⟩

/-- C8 (amended): every invalid initialization input (non-binary string,
list whose length is not a power of two, zero vector, non-positive integer)
raises its error at the point of invalid input and leaves `n` and the state
vector unchanged — but NOT with no mutation at all: the gate list and the
stored result are unconditionally cleared before validation, so a failed
re-initialization erases them (see the counterexample). -/
theorem initialize_fail_fast (c : Circuit) :
    (∀ s : String, matches01 s = false →
      initialize_state_str c s
        = ⟨some "BinaryStringError", { c with gates := [], result := none }⟩) ∧
    (∀ k : ℤ, k ≤ 0 →
      initialize_state_int c k
        = ⟨some "PositiveValueError", { c with gates := [], result := none }⟩) ∧
    (∀ (normalize : List ℚ → ℕ → RQ2) (v : List ℚ),
      (v.length &&& (v.length - 1) ≠ 0 ∨ v.length = 0) →
      initialize_state_list normalize c v
        = ⟨some "PowerOfTwoLengthError", { c with gates := [], result := none }⟩) ∧
    (∀ (normalize : List ℚ → ℕ → RQ2) (v : List ℚ),
      ¬ (v.length &&& (v.length - 1) ≠ 0 ∨ v.length = 0) →
      (v.map (fun x => x * x)).sum = 0 →
      initialize_state_list normalize c v
        = ⟨some "ValueError: Cannot normalize a zero vector",
            { c with gates := [], result := none }⟩) := by
  refine ⟨?_, ?_, ?_, ?_⟩
  · intro s hs
    unfold initialize_state_str
    rw [if_pos hs]
  · intro k hk
    unfold initialize_state_int
    rw [if_pos hk]
  · intro normalize v hv
    unfold initialize_state_list
    rw [if_pos hv]
  · intro normalize v hv hz
    unfold initialize_state_list
    rw [if_neg hv, if_pos hz]

/-- Witness for C8: re-initializing with the non-binary string `"abc"`
raises `BinaryStringError` (and clears gates and result). -/
theorem initialize_fail_fast_witness :
    initialize_state_str ⟨1, eBasis 0, [gateX], some (eBasis 1)⟩ "abc"
      = ⟨some "BinaryStringError", ⟨1, eBasis 0, [], none⟩⟩ :=
  (initialize_fail_fast ⟨1, eBasis 0, [gateX], some (eBasis 1)⟩).1 "abc" (by decide)

/-- C8 counterexample: initialization failure is not mutation-free.  A
circuit holding one gate and a stored result, re-initialized with the
invalid string `"abc"`, raises `BinaryStringError` — yet its gate list and
result come out cleared, not "left unchanged" as claimed. -/
theorem initialize_fail_mutates_counterexample :
    (initialize_state_str ⟨1, eBasis 0, [gateX], some (eBasis 1)⟩ "abc").error
        = some "BinaryStringError" ∧
    (initialize_state_str ⟨1, eBasis 0, [gateX], some (eBasis 1)⟩ "abc").after.gates
        = [] ∧
    (initialize_state_str ⟨1, eBasis 0, [gateX], some (eBasis 1)⟩ "abc").after.result
        = none ∧
    ([gateX] : List Mat) ≠ [] := by
  refine ⟨rfl, rfl, rfl, by simp⟩
